import Mathlib

/-!
Text layout buffer of the voxel engine

A shallow embedding of `src/font/TextBuffer.cxx`: the geometry buffer
(`addVertex`, `clear`), the quad emitter (`addQuad`) and the text layout engine
(`addCharacter`, `addText`), followed by theorems about them.

Modelling conventions.

* `float` values are exact rationals (`ℚ`); a cast `(int)x` is truncation
  towards zero (`toInt`).
* `std::vector` members are lists, `push_back` appends at the end.
* `unsigned int` counters read from `size()` are natural numbers: a counter
  wraps only once a vector holds `2^32` elements, which is outside the model.
* A `wchar_t` is an integer character code; a `std::wstring` is the list of its
  codes, and reading position `length()` of a `const` string yields code `0`.
* `boost::shared_ptr<Glyph>` is `Option Glyph`; dereferencing a null pointer
  makes the whole call fail (`none`).
* The pen is a reference parameter: the functions return its final value next
  to the final buffer.
* The GPU members (`program_`, `cache_`, `buffer_`) take no part in layout and
  are left out of the state.
-/

namespace Voxel

/-- Value of `glm::vec2`. The texture names `s`, `t` are aliases of `x`, `y`. -/
structure Vec2 where
  x : ℚ
  y : ℚ
deriving DecidableEq

/-- Alias of the first component of a `glm::vec2`. -/
def Vec2.s (v : Vec2) : ℚ := v.x

/-- Alias of the second component of a `glm::vec2`. -/
def Vec2.t (v : Vec2) : ℚ := v.y

/-- Value of `glm::vec3`. -/
structure Vec3 where
  x : ℚ
  y : ℚ
  z : ℚ
deriving DecidableEq

/-- Value of `glm::vec4`, used as an RGBA colour (`a` is alpha). -/
structure Vec4 where
  r : ℚ
  g : ℚ
  b : ℚ
  a : ℚ
deriving DecidableEq

/-- Value of `glm::ivec4`, the record kept per laid-out character:
`(vstart, vcount, istart, icount)`. -/
structure IVec4 where
  x : ℤ
  y : ℤ
  z : ℤ
  w : ℤ
deriving DecidableEq

/-- Modelled from the spec: `TextureFont::Glyph` is declared in TextureFont.h,
which is not among the sources. The fields are the ones `TextBuffer.cxx` reads:
advance vector, pixel offset, width, height and the two corners `st_[0]`,
`st_[1]` of the atlas UV rectangle. -/
structure Glyph where
  advance_ : Vec2
  offset_ : Vec2
  width_ : ℚ
  height_ : ℚ
  st_0 : Vec2
  st_1 : Vec2
deriving DecidableEq

/-- Modelled from the spec: `TextureFont` (the glyph source) is declared in
TextureFont.h, which is not among the sources. `glyph` returns the glyph of a
character code or nothing for an unmapped code; the other fields are the
font-wide metrics `TextBuffer.cxx` queries. -/
structure TextureFont where
  glyph : ℤ → Option Glyph
  height : ℚ
  descender : ℚ
  ascender : ℚ
  linegap : ℚ
  underlinePosition : ℚ
  underlineThickness : ℚ

/-- Modelled from the spec: `Markup` (the style descriptor) is declared in
TextBuffer.h, which is not among the sources. It bundles the font, the
foreground, background, underline, overline and strikethrough colours, the
three toggles and the gamma. -/
structure Markup where
  font_ : TextureFont
  foregroundColor_ : Vec4
  backgroundColor_ : Vec4
  underline_ : Bool
  underlineColor_ : Vec4
  overline_ : Bool
  overlineColor_ : Vec4
  strikethrough_ : Bool
  strikethroughColor_ : Vec4
  gamma_ : ℚ

/-- Data members of `TextBuffer` that `TextBuffer.cxx` reads and writes during
layout. -/
structure TextBuffer where
  xyz_ : List Vec3
  uv_ : List Vec2
  rgba_ : List Vec4
  shift_ : List ℚ
  gamma_ : List ℚ
  indices_ : List ℕ
  items_ : List IVec4
  origin_ : Vec2
  lineStart_ : ℕ
  ascender_ : ℚ
  descender_ : ℚ
deriving DecidableEq

/-- Character code of `L'\n'`. -/
def newline : ℤ := 10

/-- Cast `(int)x` of a float: truncation towards zero. -/
def toInt (x : ℚ) : ℤ := if 0 ≤ x then ⌊x⌋ else ⌈x⌉

/-- Constructor `TextBuffer::TextBuffer`: every vector is empty, `ascender_`,
`descender_` and `lineStart_` are zero. The initialiser list does not mention
`origin_`, so its initial value is a parameter. -/
def TextBuffer.construct (origin : Vec2) : TextBuffer :=
  { xyz_ := [], uv_ := [], rgba_ := [], shift_ := [], gamma_ := [],
    indices_ := [], items_ := [], origin_ := origin,
    lineStart_ := 0, ascender_ := 0, descender_ := 0 }

/-- Method `TextBuffer::addVertex`: one `push_back` on each of the five
parallel vectors. -/
def addVertex (b : TextBuffer) (position : Vec3) (texture : Vec2) (color : Vec4)
    (shift gamma : ℚ) : TextBuffer :=
  { b with
    xyz_ := b.xyz_ ++ [position]
    uv_ := b.uv_ ++ [texture]
    rgba_ := b.rgba_ ++ [color]
    shift_ := b.shift_ ++ [shift]
    gamma_ := b.gamma_ ++ [gamma] }

/-- Method `TextBuffer::addQuad`: four `addVertex` calls, then six index
`push_back`s relative to the vertex count read on entry. -/
def addQuad (b : TextBuffer) (xy0 xy1 uv0 uv1 : Vec2) (color : Vec4) (gamma : ℚ) :
    TextBuffer :=
  let vcount := b.xyz_.length
  let b1 := addVertex b ⟨xy0.x, xy0.y, 0⟩ ⟨uv0.s, uv1.t⟩ color (xy0.x - toInt xy0.x) gamma
  let b2 := addVertex b1 ⟨xy0.x, xy1.y, 0⟩ ⟨uv0.s, uv0.t⟩ color (xy0.x - toInt xy0.x) gamma
  let b3 := addVertex b2 ⟨xy1.x, xy1.y, 0⟩ ⟨uv1.s, uv0.t⟩ color (xy1.x - toInt xy1.x) gamma
  let b4 := addVertex b3 ⟨xy1.x, xy0.y, 0⟩ ⟨uv1.s, uv1.t⟩ color (xy1.x - toInt xy1.x) gamma
  { b4 with
    indices_ := b4.indices_ ++ [vcount] ++ [vcount + 2] ++ [vcount + 1]
      ++ [vcount] ++ [vcount + 3] ++ [vcount + 2] }

/-- Local variables of `addCharacter` that change from one decoration block to
the next: the buffer and the running `vcount`, `icount`. -/
structure Emitted where
  buf : TextBuffer
  vcount : ℕ
  icount : ℕ

/-- One decoration block of `addCharacter`,
`if (cond) { addQuad(xy0, xy1, black->st_[0], black->st_[1], color, gamma); vcount += 4; icount += 6; }`.
The block dereferences `black`, so it fails when the condition holds and the
sentinel glyph is null. -/
def decoration (cond : Bool) (black : Option Glyph) (xy0 xy1 : Vec2) (color : Vec4)
    (gamma : ℚ) (e : Emitted) : Option Emitted :=
  if cond then
    match black with
    | none => none
    | some bl =>
      some ⟨addQuad e.buf xy0 xy1 bl.st_0 bl.st_1 color gamma, e.vcount + 4, e.icount + 6⟩
  else some e

/-- Method `TextBuffer::addCharacter`. Returns the buffer and the pen after the
call; the `previous` character is accepted and never read, as in the source. -/
def addCharacter (b : TextBuffer) (pen : Vec2) (markup : Markup) (current _previous : ℤ) :
    Option (TextBuffer × Vec2) :=
  if current = newline then
    some ({ b with lineStart_ := b.items_.length },
      ⟨b.origin_.x, pen.y + (markup.font_.height - markup.font_.descender)⟩)
  else
    let black := markup.font_.glyph (-1)
    match markup.font_.glyph current with
    | none => some (b, pen)
    | some glyph =>
      let istart := b.indices_.length
      let vstart := b.xyz_.length
      let bg0 : Vec2 := ⟨pen.x, pen.y + markup.font_.descender⟩
      let bg1 : Vec2 :=
        ⟨pen.x + glyph.advance_.x, bg0.y + markup.font_.height + markup.font_.linegap⟩
      let ul0 : Vec2 := ⟨pen.x, pen.y + markup.font_.underlinePosition⟩
      let ul1 : Vec2 := ⟨pen.x + glyph.advance_.x, ul0.y + markup.font_.underlineThickness⟩
      let ol0 : Vec2 := ⟨pen.x, pen.y + markup.font_.ascender⟩
      let ol1 : Vec2 := ⟨pen.x + glyph.advance_.x, ol0.y + markup.font_.underlineThickness⟩
      let st0 : Vec2 := ⟨pen.x, pen.y + markup.font_.ascender * (33 / 100)⟩
      let st1 : Vec2 := ⟨pen.x + glyph.advance_.x, st0.y + markup.font_.underlineThickness⟩
      (decoration (decide (markup.backgroundColor_.a > 0)) black bg0 bg1
        markup.backgroundColor_ markup.gamma_ ⟨b, 0, 0⟩).bind fun e1 =>
      (decoration markup.underline_ black ul0 ul1
        markup.underlineColor_ markup.gamma_ e1).bind fun e2 =>
      (decoration markup.overline_ black ol0 ol1
        markup.overlineColor_ markup.gamma_ e2).bind fun e3 =>
      (decoration markup.strikethrough_ black st0 st1
        markup.overlineColor_ markup.gamma_ e3).bind fun e4 =>
      let xy0 : Vec2 :=
        ⟨pen.x + glyph.offset_.x, (toInt (pen.y + glyph.height_ - glyph.offset_.y) : ℚ)⟩
      let xy1 : Vec2 := ⟨xy0.x + glyph.width_, (toInt (xy0.y - glyph.offset_.y) : ℚ)⟩
      let b5 := addQuad e4.buf xy0 xy1 glyph.st_0 glyph.st_1 markup.foregroundColor_
        markup.gamma_
      some ({ b5 with
          items_ := b5.items_ ++ [⟨vstart, ((e4.vcount + 4 : ℕ) : ℤ), istart,
            ((e4.icount + 6 : ℕ) : ℤ)⟩] },
        ⟨pen.x + glyph.advance_.x, pen.y⟩)

/-- The `for` loop of `addText`: `addCharacter(pen, markup, text[i], text[i - 1])`
for the characters after the first, `previous` being the character before. -/
def addTextLoop (markup : Markup) : ℤ → List ℤ → TextBuffer × Vec2 → Option (TextBuffer × Vec2)
  | _, [], st => some st
  | previous, current :: rest, st =>
    (addCharacter st.1 st.2 markup current previous).bind (addTextLoop markup current rest)

/-- Method `TextBuffer::addText`. The origin is recorded when the buffer holds
no vertex; `text[0]` is laid out unconditionally (it reads code `0` when the
text is empty), then the loop runs over the remaining characters. -/
def addText (b : TextBuffer) (pen : Vec2) (markup : Markup) (text : List ℤ) :
    Option (TextBuffer × Vec2) :=
  let b0 := if b.xyz_.length = 0 then { b with origin_ := pen } else b
  (addCharacter b0 pen markup (text.headD 0) 0).bind
    (addTextLoop markup (text.headD 0) text.tail)

/-- Method `TextBuffer::clear`: the five vertex vectors, the item list and the
index list are emptied; the other members are left as they are. -/
def clear (b : TextBuffer) : TextBuffer :=
  { b with xyz_ := [], rgba_ := [], uv_ := [], shift_ := [], gamma_ := [],
           items_ := [], indices_ := [] }

/-- One call on a `TextBuffer`, with its arguments. -/
inductive Call where
  | addText (pen : Vec2) (markup : Markup) (text : List ℤ)
  | addCharacter (pen : Vec2) (markup : Markup) (current previous : ℤ)
  | addQuad (xy0 xy1 uv0 uv1 : Vec2) (color : Vec4) (gamma : ℚ)
  | addVertex (position : Vec3) (texture : Vec2) (color : Vec4) (shift gamma : ℚ)
  | clear

/-- Calls of the layout interface proper: `addText` and `clear`. -/
def Call.isLayout : Call → Bool
  | .addText _ _ _ => true
  | .clear => true
  | _ => false

/-- Effect of one call on the buffer (the pen left by the call is dropped: the
caller owns it). -/
def Call.run : Call → TextBuffer → Option TextBuffer
  | .addText pen markup text, b => (Voxel.addText b pen markup text).map Prod.fst
  | .addCharacter pen markup current previous, b =>
    (Voxel.addCharacter b pen markup current previous).map Prod.fst
  | .addQuad xy0 xy1 uv0 uv1 color gamma, b => some (Voxel.addQuad b xy0 xy1 uv0 uv1 color gamma)
  | .addVertex position texture color shift gamma, b =>
    some (Voxel.addVertex b position texture color shift gamma)
  | .clear, b => some (Voxel.clear b)

/-- Effect of a sequence of calls, first to last. -/
def runCalls : List Call → TextBuffer → Option TextBuffer
  | [], b => some b
  | c :: cs, b => (c.run b).bind (runCalls cs)

/-! ## Definitions used to state the properties -/

/-- Four corner positions that `addQuad` appends, in order. -/
def quadPositions (xy0 xy1 : Vec2) : List Vec3 :=
  [⟨xy0.x, xy0.y, 0⟩, ⟨xy0.x, xy1.y, 0⟩, ⟨xy1.x, xy1.y, 0⟩, ⟨xy1.x, xy0.y, 0⟩]

/-- Six indices of the quad whose first vertex has index `v`: the triangles
`(v0, v2, v1)` and `(v0, v3, v2)`. -/
def quadIndices (v : ℕ) : List ℕ := [v, v + 2, v + 1, v, v + 3, v + 2]

/-- Index list of a buffer made of `q` quads emitted one after the other. -/
def windingOf : ℕ → List ℕ
  | 0 => []
  | q + 1 => windingOf q ++ quadIndices (4 * q)

/-- The buffer consists of whole quads: `4 * q` positions and the index list
of `q` consecutive quads. -/
def Wound (b : TextBuffer) : Prop :=
  ∃ q, b.xyz_.length = 4 * q ∧ b.indices_ = windingOf q

/-- The five per-vertex sequences have the same length. -/
def Lockstep (b : TextBuffer) : Prop :=
  b.uv_.length = b.xyz_.length ∧ b.rgba_.length = b.xyz_.length ∧
    b.shift_.length = b.xyz_.length ∧ b.gamma_.length = b.xyz_.length

/-- The six geometry lists of two buffers coincide. -/
def SameGeometry (b c : TextBuffer) : Prop :=
  c.xyz_ = b.xyz_ ∧ c.uv_ = b.uv_ ∧ c.rgba_ = b.rgba_ ∧ c.shift_ = b.shift_ ∧
    c.gamma_ = b.gamma_ ∧ c.indices_ = b.indices_

/-- A buffer property that layout cannot break: it is kept by every `addQuad`
and it only reads the six geometry lists. -/
structure QuadStable (P : TextBuffer → Prop) : Prop where
  quad : ∀ b xy0 xy1 uv0 uv1 color gamma, P b → P (addQuad b xy0 xy1 uv0 uv1 color gamma)
  geom : ∀ b c, SameGeometry b c → P b → P c

/-- A call keeps the buffer property `P` whenever it completes. -/
def Call.Keeps (P : TextBuffer → Prop) (c : Call) : Prop :=
  ∀ b r, c.run b = some r → P b → P r

/-- Number of active decorations of a style, as `addCharacter` tests them:
background alpha above zero, and the underline, overline and strikethrough
toggles. -/
def Markup.decorations (markup : Markup) : ℕ :=
  (if markup.backgroundColor_.a > 0 then 1 else 0) + (if markup.underline_ then 1 else 0)
    + (if markup.overline_ then 1 else 0) + (if markup.strikethrough_ then 1 else 0)

/-- The sentinel glyph (code `-1`) resolves whenever a decoration is active. -/
def Markup.sentinelReady (markup : Markup) : Prop :=
  markup.decorations = 0 ∨ (markup.font_.glyph (-1)).isSome = true

/-- The character is not a newline and the font has a glyph for it. -/
def TextureFont.resolves (font : TextureFont) (c : ℤ) : Bool :=
  decide (c ≠ newline) && (font.glyph c).isSome

/-- Number of characters of the text that are not newlines and whose glyph
resolves. -/
def TextureFont.resolved (font : TextureFont) (text : List ℤ) : ℕ :=
  (text.filter font.resolves).length

/-- The seven sequences a buffer is made of: the per-vertex data, the index
list and the item list. -/
structure Geometry where
  xyz : List Vec3
  uv : List Vec2
  rgba : List Vec4
  shift : List ℚ
  gamma : List ℚ
  indices : List ℕ
  items : List IVec4
deriving DecidableEq

/-- Geometry held by a buffer. -/
def TextBuffer.geometry (b : TextBuffer) : Geometry :=
  ⟨b.xyz_, b.uv_, b.rgba_, b.shift_, b.gamma_, b.indices_, b.items_⟩

/-- Numbers of vertices, indices and layout items of a buffer. -/
def TextBuffer.counts (b : TextBuffer) : ℕ × ℕ × ℕ :=
  (b.xyz_.length, b.indices_.length, b.items_.length)

/-- Two buffers agree on everything layout reads or produces: the geometry,
the item list and the origin. -/
def SameLayout (b c : TextBuffer) : Prop :=
  SameGeometry b c ∧ c.items_ = b.items_ ∧ c.origin_ = b.origin_

/-- Horizontal advance a character contributes to the pen: the advance of its
glyph, nothing when the glyph is missing. -/
def TextureFont.advanceOf (font : TextureFont) (c : ℤ) : ℚ :=
  match font.glyph c with
  | some g => g.advance_.x
  | none => 0

/-- Characters of the text that follow its last newline (the whole text when it
has none). -/
def afterLastNewline (text : List ℤ) : List ℤ :=
  text.rtakeWhile fun c => decide (c ≠ newline)

/-- Sum of the advances of the characters of a text whose glyph resolves. -/
def TextureFont.advanceSum (font : TextureFont) (text : List ℤ) : ℚ :=
  (text.map font.advanceOf).sum

/-! ### A small font and two styles for concrete runs -/

/-- Glyph shared by the letters of the sample font. -/
def sampleGlyph : Glyph := ⟨⟨7, 0⟩, ⟨1, 9⟩, 6, 10, ⟨1 / 8, 1 / 4⟩, ⟨3 / 8, 1 / 2⟩⟩

/-- Solid glyph of the sample font, returned for the sentinel code `-1`. -/
def sampleBlack : Glyph := ⟨⟨0, 0⟩, ⟨0, 0⟩, 1, 1, ⟨0, 0⟩, ⟨1 / 512, 1 / 512⟩⟩

/-- Sample font: glyphs for `A`, `B`, `H`, `i` and the sentinel, none for any
other code. -/
def sampleFont : TextureFont :=
  { glyph := fun c =>
      if c = -1 then some sampleBlack
      else if c = 65 ∨ c = 66 ∨ c = 72 ∨ c = 105 then some sampleGlyph
      else none
    height := 14, descender := -3, ascender := 11, linegap := 1,
    underlinePosition := -2, underlineThickness := 1 }

/-- Style with every decoration off: only the foreground is opaque. -/
def plainMarkup : Markup :=
  { font_ := sampleFont, foregroundColor_ := ⟨1, 1, 1, 1⟩,
    backgroundColor_ := ⟨0, 0, 0, 0⟩,
    underline_ := false, underlineColor_ := ⟨0, 0, 0, 0⟩,
    overline_ := false, overlineColor_ := ⟨0, 0, 0, 0⟩,
    strikethrough_ := false, strikethroughColor_ := ⟨0, 0, 0, 0⟩, gamma_ := 1 }

/-- Style whose only decoration is an opaque background. -/
def backgroundMarkup : Markup :=
  { plainMarkup with backgroundColor_ := ⟨0, 0, 1, 1⟩ }

/-- Style with all four decorations on. -/
def decoratedMarkup : Markup :=
  { plainMarkup with
    backgroundColor_ := ⟨0, 0, 1, 1⟩
    underline_ := true, underlineColor_ := ⟨1, 0, 0, 1⟩
    overline_ := true, overlineColor_ := ⟨0, 1, 0, 1⟩
    strikethrough_ := true, strikethroughColor_ := ⟨1, 1, 0, 1⟩ }

/-- Font that also has a glyph for character code `0`. -/
def nulFont : TextureFont :=
  { sampleFont with glyph := fun c => if c = 0 then some sampleGlyph else sampleFont.glyph c }

/-- Plain style over the font that maps code `0`. -/
def nulMarkup : Markup := { plainMarkup with font_ := nulFont }

/-- Three calls on a new buffer: lay out `A` with every decoration, clear, lay
out `AB` from the pen `(1/2, 3)` with the plain style. -/
def sampleCalls : List Call :=
  [Call.addText ⟨0, 0⟩ decoratedMarkup [65], Call.clear,
    Call.addText ⟨1 / 2, 3⟩ plainMarkup [65, 66]]

/-- Buffer that `sampleCalls` leaves behind: two glyph quads. -/
def sampleBuffer : TextBuffer :=
  { xyz_ := [⟨3 / 2, 4, 0⟩, ⟨3 / 2, -5, 0⟩, ⟨15 / 2, -5, 0⟩, ⟨15 / 2, 4, 0⟩,
      ⟨17 / 2, 4, 0⟩, ⟨17 / 2, -5, 0⟩, ⟨29 / 2, -5, 0⟩, ⟨29 / 2, 4, 0⟩]
    uv_ := [⟨1 / 8, 1 / 2⟩, ⟨1 / 8, 1 / 4⟩, ⟨3 / 8, 1 / 4⟩, ⟨3 / 8, 1 / 2⟩,
      ⟨1 / 8, 1 / 2⟩, ⟨1 / 8, 1 / 4⟩, ⟨3 / 8, 1 / 4⟩, ⟨3 / 8, 1 / 2⟩]
    rgba_ := [⟨1, 1, 1, 1⟩, ⟨1, 1, 1, 1⟩, ⟨1, 1, 1, 1⟩, ⟨1, 1, 1, 1⟩,
      ⟨1, 1, 1, 1⟩, ⟨1, 1, 1, 1⟩, ⟨1, 1, 1, 1⟩, ⟨1, 1, 1, 1⟩]
    shift_ := [1 / 2, 1 / 2, 1 / 2, 1 / 2, 1 / 2, 1 / 2, 1 / 2, 1 / 2]
    gamma_ := [1, 1, 1, 1, 1, 1, 1, 1]
    indices_ := [0, 2, 1, 0, 3, 2, 4, 6, 5, 4, 7, 6]
    items_ := [⟨0, 4, 0, 6⟩, ⟨4, 4, 6, 6⟩]
    origin_ := ⟨1 / 2, 3⟩
    lineStart_ := 0, ascender_ := 0, descender_ := 0 }

/-! ### Quads emitted for one character -/

/-- Arguments of one `addQuad` call. -/
structure Quad where
  xy0 : Vec2
  xy1 : Vec2
  uv0 : Vec2
  uv1 : Vec2
  color : Vec4
  gamma : ℚ
deriving DecidableEq

/-- One `addQuad` call with the arguments bundled in a `Quad`. -/
def emit (b : TextBuffer) (k : Quad) : TextBuffer :=
  addQuad b k.xy0 k.xy1 k.uv0 k.uv1 k.color k.gamma

/-- Four texture coordinates that `addQuad` appends, in order. -/
def quadUVs (uv0 uv1 : Vec2) : List Vec2 :=
  [⟨uv0.s, uv1.t⟩, ⟨uv0.s, uv0.t⟩, ⟨uv1.s, uv0.t⟩, ⟨uv1.s, uv1.t⟩]

/-- Decoration quads that `addCharacter` emits for a resolved character with
glyph `g` at `pen`, in emission order, read off the four `if` blocks of the
source; `uv0`, `uv1` stand for `black->st_[0]`, `black->st_[1]`. -/
def decorationQuads (pen : Vec2) (markup : Markup) (g : Glyph) (uv0 uv1 : Vec2) : List Quad :=
  (if markup.backgroundColor_.a > 0 then
      [⟨⟨pen.x, pen.y + markup.font_.descender⟩,
        ⟨pen.x + g.advance_.x,
          pen.y + markup.font_.descender + markup.font_.height + markup.font_.linegap⟩,
        uv0, uv1, markup.backgroundColor_, markup.gamma_⟩]
    else [])
  ++ (if markup.underline_ then
      [⟨⟨pen.x, pen.y + markup.font_.underlinePosition⟩,
        ⟨pen.x + g.advance_.x,
          pen.y + markup.font_.underlinePosition + markup.font_.underlineThickness⟩,
        uv0, uv1, markup.underlineColor_, markup.gamma_⟩]
    else [])
  ++ (if markup.overline_ then
      [⟨⟨pen.x, pen.y + markup.font_.ascender⟩,
        ⟨pen.x + g.advance_.x, pen.y + markup.font_.ascender + markup.font_.underlineThickness⟩,
        uv0, uv1, markup.overlineColor_, markup.gamma_⟩]
    else [])
  ++ (if markup.strikethrough_ then
      [⟨⟨pen.x, pen.y + markup.font_.ascender * (33 / 100)⟩,
        ⟨pen.x + g.advance_.x,
          pen.y + markup.font_.ascender * (33 / 100) + markup.font_.underlineThickness⟩,
        uv0, uv1, markup.overlineColor_, markup.gamma_⟩]
    else [])

/-- Glyph body quad that `addCharacter` emits for a resolved character with
glyph `g` at `pen`, read off the source. -/
def glyphQuad (pen : Vec2) (markup : Markup) (g : Glyph) : Quad :=
  ⟨⟨pen.x + g.offset_.x, (toInt (pen.y + g.height_ - g.offset_.y) : ℚ)⟩,
    ⟨pen.x + g.offset_.x + g.width_,
      (toInt ((toInt (pen.y + g.height_ - g.offset_.y) : ℚ) - g.offset_.y) : ℚ)⟩,
    g.st_0, g.st_1, markup.foregroundColor_, markup.gamma_⟩

/-- Positions of a decoration rectangle for glyph `g` at `pen`: the quad with
`corner0 = (pen.x, y0)` and `corner1 = (pen.x + g.advance.x, y0 + h)`. -/
def rectangle (pen : Vec2) (g : Glyph) (y0 h : ℚ) : List Vec3 :=
  quadPositions ⟨pen.x, y0⟩ ⟨pen.x + g.advance_.x, y0 + h⟩

/-- Plain style with the underline toggle set and a fully transparent
underline colour. -/
def ghostUnderlineMarkup : Markup :=
  { plainMarkup with underline_ := true, underlineColor_ := ⟨1, 0, 0, 0⟩ }

/-- Plain style with only the strikethrough toggle set; the strikethrough colour
is yellow, the overline colour is green. -/
def strikeMarkup : Markup :=
  { plainMarkup with
    strikethrough_ := true, strikethroughColor_ := ⟨1, 1, 0, 1⟩
    overlineColor_ := ⟨0, 1, 0, 1⟩ }

/-- Every shift is the x-coordinate of its vertex minus that coordinate cast to
`int`. -/
def ShiftOfPosition (b : TextBuffer) : Prop :=
  b.shift_ = b.xyz_.map fun p : Vec3 => p.x - (toInt p.x : ℚ)

/-- Two buffers agree on everything layout reads or produces along a line: the
geometry, the item list and the x-coordinate of the origin. -/
def SameLine (b c : TextBuffer) : Prop :=
  SameGeometry b c ∧ c.items_ = b.items_ ∧ c.origin_.x = b.origin_.x

/-- While the buffer holds no vertex the pen is at the x-coordinate of the
origin. -/
def PenAtOrigin (st : TextBuffer × Vec2) : Prop :=
  st.1.xyz_.length = 0 → st.2.x = st.1.origin_.x

/-- Start of `addText`: the origin is recorded when the buffer holds no vertex. -/
def recordOrigin (st : TextBuffer × Vec2) : TextBuffer × Vec2 :=
  (if st.1.xyz_.length = 0 then { st.1 with origin_ := st.2 } else st.1, st.2)

/-! ### Layout items -/

/-- Characters an `addText` call hands to `addCharacter`: `text[0]`, then the
characters after it. For a non-empty text these are the characters of the
text; for the empty text it is the single character code `0`. -/
def laidOut (text : List ℤ) : List ℤ := text.headD 0 :: text.tail

/-- Number of layout items expected after one call, from the number before it:
`clear` leaves none, `addText` adds one per laid-out character that is not a
newline and whose glyph resolves. -/
def Call.itemCount : Call → ℕ → ℕ
  | .clear, _ => 0
  | .addText _ markup text, n => n + markup.font_.resolved (laidOut text)
  | _, n => n

/-- Number of layout items expected after a sequence of calls. -/
def itemCount : List Call → ℕ → ℕ
  | [], n => n
  | c :: cs, n => itemCount cs (c.itemCount n)

/-- The items tile the ranges from `(v, i)` to `(ve, ie)`: each item starts
where the previous one ends and spans `4 * k` vertices and `6 * k` indices for
some `k` between 1 and 5. -/
def tilesFrom : ℤ → ℤ → List IVec4 → ℤ → ℤ → Prop
  | v, i, [], ve, ie => ve = v ∧ ie = i
  | v, i, it :: rest, ve, ie =>
    it.x = v ∧ it.z = i ∧ (∃ k : ℤ, 1 ≤ k ∧ k ≤ 5 ∧ it.y = 4 * k ∧ it.w = 6 * k) ∧
      tilesFrom (v + it.y) (i + it.w) rest ve ie

/-- The items of the buffer tile its vertices and indices from the start. -/
def Tiled (b : TextBuffer) : Prop :=
  tilesFrom 0 0 b.items_ b.xyz_.length b.indices_.length

/-! ## Field lemmas for the buffer primitives -/

theorem addQuad_xyz (b : TextBuffer) (xy0 xy1 uv0 uv1 : Vec2) (color : Vec4) (gamma : ℚ) :
    (addQuad b xy0 xy1 uv0 uv1 color gamma).xyz_ = b.xyz_ ++ quadPositions xy0 xy1 := by
  simp [addQuad, addVertex, quadPositions]

theorem addQuad_uv (b : TextBuffer) (xy0 xy1 uv0 uv1 : Vec2) (color : Vec4) (gamma : ℚ) :
    (addQuad b xy0 xy1 uv0 uv1 color gamma).uv_ =
      b.uv_ ++ [⟨uv0.s, uv1.t⟩, ⟨uv0.s, uv0.t⟩, ⟨uv1.s, uv0.t⟩, ⟨uv1.s, uv1.t⟩] := by
  simp [addQuad, addVertex]

theorem addQuad_rgba (b : TextBuffer) (xy0 xy1 uv0 uv1 : Vec2) (color : Vec4) (gamma : ℚ) :
    (addQuad b xy0 xy1 uv0 uv1 color gamma).rgba_ = b.rgba_ ++ [color, color, color, color] := by
  simp [addQuad, addVertex]

theorem addQuad_shift (b : TextBuffer) (xy0 xy1 uv0 uv1 : Vec2) (color : Vec4) (gamma : ℚ) :
    (addQuad b xy0 xy1 uv0 uv1 color gamma).shift_ =
      b.shift_ ++ [xy0.x - toInt xy0.x, xy0.x - toInt xy0.x, xy1.x - toInt xy1.x,
        xy1.x - toInt xy1.x] := by
  simp [addQuad, addVertex]

theorem addQuad_gamma (b : TextBuffer) (xy0 xy1 uv0 uv1 : Vec2) (color : Vec4) (gamma : ℚ) :
    (addQuad b xy0 xy1 uv0 uv1 color gamma).gamma_ = b.gamma_ ++ [gamma, gamma, gamma, gamma] := by
  simp [addQuad, addVertex]

theorem addQuad_indices (b : TextBuffer) (xy0 xy1 uv0 uv1 : Vec2) (color : Vec4) (gamma : ℚ) :
    (addQuad b xy0 xy1 uv0 uv1 color gamma).indices_ =
      b.indices_ ++ quadIndices b.xyz_.length := by
  simp [addQuad, addVertex, quadIndices]

theorem addQuad_items (b : TextBuffer) (xy0 xy1 uv0 uv1 : Vec2) (color : Vec4) (gamma : ℚ) :
    (addQuad b xy0 xy1 uv0 uv1 color gamma).items_ = b.items_ := rfl

theorem addQuad_origin (b : TextBuffer) (xy0 xy1 uv0 uv1 : Vec2) (color : Vec4) (gamma : ℚ) :
    (addQuad b xy0 xy1 uv0 uv1 color gamma).origin_ = b.origin_ := rfl

theorem addQuad_lineStart (b : TextBuffer) (xy0 xy1 uv0 uv1 : Vec2) (color : Vec4) (gamma : ℚ) :
    (addQuad b xy0 xy1 uv0 uv1 color gamma).lineStart_ = b.lineStart_ := rfl

theorem decoration_stable {P : TextBuffer → Prop} (hP : QuadStable P) {cond : Bool}
    {black : Option Glyph} {xy0 xy1 : Vec2} {color : Vec4} {gamma : ℚ} {e r : Emitted}
    (h : decoration cond black xy0 xy1 color gamma e = some r) (he : P e.buf) : P r.buf := by
  unfold decoration at h
  split at h
  · cases black with
    | none => simp at h
    | some bl =>
      simp only [Option.some.injEq] at h
      subst h
      exact hP.quad _ _ _ _ _ _ _ he
  · simp only [Option.some.injEq] at h
    subst h
    exact he

theorem addCharacter_stable {P : TextBuffer → Prop} (hP : QuadStable P) {b r : TextBuffer}
    {pen q : Vec2} {markup : Markup} {current previous : ℤ}
    (h : addCharacter b pen markup current previous = some (r, q)) (hb : P b) : P r := by
  unfold addCharacter at h
  split at h
  · simp only [Option.some.injEq, Prod.mk.injEq] at h
    obtain ⟨rfl, -⟩ := h
    exact hP.geom b _ ⟨rfl, rfl, rfl, rfl, rfl, rfl⟩ hb
  · split at h
    · simp only [Option.some.injEq, Prod.mk.injEq] at h
      obtain ⟨rfl, -⟩ := h
      exact hb
    · simp only [Option.bind_eq_some, Option.some.injEq, Prod.mk.injEq] at h
      obtain ⟨e1, h1, e2, h2, e3, h3, e4, h4, rfl, -⟩ := h
      have p1 := decoration_stable hP h1 hb
      have p2 := decoration_stable hP h2 p1
      have p3 := decoration_stable hP h3 p2
      have p4 := decoration_stable hP h4 p3
      refine hP.geom (addQuad e4.buf _ _ _ _ _ _) _ ⟨rfl, rfl, rfl, rfl, rfl, rfl⟩ ?_
      exact hP.quad _ _ _ _ _ _ _ p4

theorem addTextLoop_stable {P : TextBuffer → Prop} (hP : QuadStable P) {markup : Markup}
    (text : List ℤ) : ∀ (previous : ℤ) (st r : TextBuffer × Vec2),
    addTextLoop markup previous text st = some r → P st.1 → P r.1 := by
  induction text with
  | nil =>
    intro previous st r h hb
    simp only [addTextLoop, Option.some.injEq] at h
    subst h
    exact hb
  | cons c cs ih =>
    intro previous st r h hb
    simp only [addTextLoop, Option.bind_eq_some] at h
    obtain ⟨mid, h1, h2⟩ := h
    exact ih c mid r h2 (addCharacter_stable hP (r := mid.1) (q := mid.2) h1 hb)

theorem addText_stable {P : TextBuffer → Prop} (hP : QuadStable P) {b r : TextBuffer}
    {pen q : Vec2} {markup : Markup} {text : List ℤ}
    (h : addText b pen markup text = some (r, q)) (hb : P b) : P r := by
  simp only [addText, Option.bind_eq_some] at h
  obtain ⟨mid, h1, h2⟩ := h
  have h0 : P (if b.xyz_.length = 0 then { b with origin_ := pen } else b) := by
    split
    · exact hP.geom b _ ⟨rfl, rfl, rfl, rfl, rfl, rfl⟩ hb
    · exact hb
  exact addTextLoop_stable hP _ _ mid (r, q) h2
    (addCharacter_stable hP (r := mid.1) (q := mid.2) h1 h0)

/-! ## Sequences of calls -/

theorem runCalls_keeps {P : TextBuffer → Prop} (calls : List Call) :
    ∀ b r : TextBuffer, (∀ c ∈ calls, c.Keeps P) → runCalls calls b = some r → P b → P r := by
  induction calls with
  | nil =>
    intro b r _ h hb
    simp only [runCalls, Option.some.injEq] at h
    subst h
    exact hb
  | cons c cs ih =>
    intro b r hk h hb
    simp only [runCalls, Option.bind_eq_some] at h
    obtain ⟨mid, h1, h2⟩ := h
    exact ih mid r (fun d hd => hk d (List.mem_cons_of_mem c hd)) h2
      (hk c (List.mem_cons_self c cs) b mid h1 hb)

theorem keeps_of_isLayout {P : TextBuffer → Prop} (hP : QuadStable P)
    (hclear : ∀ b, P (clear b)) (c : Call) (hc : c.isLayout = true) : c.Keeps P := by
  intro b r h hb
  cases c with
  | addText pen markup text =>
    change (addText b pen markup text).map Prod.fst = some r at h
    obtain ⟨⟨r1, q⟩, hq, rfl⟩ := Option.map_eq_some.mp h
    exact addText_stable hP hq hb
  | clear =>
    simp only [Call.run, Option.some.injEq] at h
    subst h
    exact hclear b
  | addCharacter pen markup current previous => simp [Call.isLayout] at hc
  | addQuad xy0 xy1 uv0 uv1 color gamma => simp [Call.isLayout] at hc
  | addVertex position texture color shift gamma => simp [Call.isLayout] at hc

theorem keeps_of_any {P : TextBuffer → Prop} (hP : QuadStable P)
    (hclear : ∀ b, P (clear b))
    (hvertex : ∀ b position texture color shift gamma,
      P b → P (addVertex b position texture color shift gamma))
    (c : Call) : c.Keeps P := by
  intro b r h hb
  cases c with
  | addText pen markup text =>
    change (addText b pen markup text).map Prod.fst = some r at h
    obtain ⟨⟨r1, q⟩, hq, rfl⟩ := Option.map_eq_some.mp h
    exact addText_stable hP hq hb
  | clear =>
    simp only [Call.run, Option.some.injEq] at h
    subst h
    exact hclear b
  | addCharacter pen markup current previous =>
    change (addCharacter b pen markup current previous).map Prod.fst = some r at h
    obtain ⟨⟨r1, q⟩, hq, rfl⟩ := Option.map_eq_some.mp h
    exact addCharacter_stable hP hq hb
  | addQuad xy0 xy1 uv0 uv1 color gamma =>
    simp only [Call.run, Option.some.injEq] at h
    subst h
    exact hP.quad _ _ _ _ _ _ _ hb
  | addVertex position texture color shift gamma =>
    simp only [Call.run, Option.some.injEq] at h
    subst h
    exact hvertex _ _ _ _ _ _ hb

/-! ## Whole quads and the winding pattern -/

theorem length_windingOf (q : ℕ) : (windingOf q).length = 6 * q := by
  induction q with
  | zero => rfl
  | succ q ih => simp [windingOf, quadIndices, ih]; omega

theorem mem_windingOf_lt (q : ℕ) : ∀ i ∈ windingOf q, i < 4 * q := by
  induction q with
  | zero => intro i hi; simp [windingOf] at hi
  | succ q ih =>
    intro i hi
    simp only [windingOf, List.mem_append] at hi
    rcases hi with hi | hi
    · have := ih i hi
      omega
    · simp only [quadIndices, List.mem_cons, List.mem_singleton, List.not_mem_nil, or_false] at hi
      omega

theorem windingOf_group (q k : ℕ) (hk : k < q) :
    ((windingOf q).drop (6 * k)).take 6 = quadIndices (4 * k) := by
  induction q with
  | zero => omega
  | succ q ih =>
    rcases Nat.lt_succ_iff_lt_or_eq.mp hk with h | h
    · have hlen : 6 * k + 6 ≤ (windingOf q).length := by rw [length_windingOf]; omega
      rw [windingOf, List.drop_append_of_le_length (by omega),
        List.take_append_of_le_length (by rw [List.length_drop]; omega)]
      exact ih h
    · subst h
      have hlen : (windingOf k).length = 6 * k := length_windingOf k
      rw [windingOf, ← hlen, List.drop_left]
      rfl

theorem wound_quadStable : QuadStable Wound where
  quad := by
    rintro b xy0 xy1 uv0 uv1 color gamma ⟨q, hx, hi⟩
    refine ⟨q + 1, ?_, ?_⟩
    · rw [addQuad_xyz, List.length_append, hx]
      simp [quadPositions]
      omega
    · rw [addQuad_indices, hi, hx]
      rfl
  geom := by
    rintro b c ⟨hx, -, -, -, -, hi⟩ ⟨q, h1, h2⟩
    exact ⟨q, by rw [hx, h1], by rw [hi, h2]⟩

theorem wound_clear (b : TextBuffer) : Wound (clear b) := ⟨0, rfl, rfl⟩

theorem wound_construct (origin : Vec2) : Wound (TextBuffer.construct origin) := ⟨0, rfl, rfl⟩

theorem wound_of_layout_calls {origin : Vec2} {calls : List Call} {b : TextBuffer}
    (hcalls : ∀ c ∈ calls, c.isLayout = true)
    (hrun : runCalls calls (TextBuffer.construct origin) = some b) : Wound b :=
  runCalls_keeps calls _ b
    (fun c hc => keeps_of_isLayout wound_quadStable wound_clear c (hcalls c hc)) hrun
    (wound_construct origin)

/-! ## Lockstep of the five vertex sequences -/

theorem lockstep_quadStable : QuadStable Lockstep where
  quad := by
    rintro b xy0 xy1 uv0 uv1 color gamma ⟨h1, h2, h3, h4⟩
    simp only [Lockstep, addQuad_xyz, addQuad_uv, addQuad_rgba, addQuad_shift, addQuad_gamma,
      List.length_append, quadPositions, List.length_cons, List.length_nil, h1, h2, h3, h4]
    exact ⟨trivial, trivial, trivial, trivial⟩
  geom := by
    rintro b c ⟨hx, hu, hr, hs, hg, -⟩ ⟨h1, h2, h3, h4⟩
    simp only [Lockstep, hx, hu, hr, hs, hg]
    exact ⟨h1, h2, h3, h4⟩

theorem lockstep_clear (b : TextBuffer) : Lockstep (clear b) := ⟨rfl, rfl, rfl, rfl⟩

theorem lockstep_addVertex (b : TextBuffer) (position : Vec3) (texture : Vec2) (color : Vec4)
    (shift gamma : ℚ) (h : Lockstep b) :
    Lockstep (addVertex b position texture color shift gamma) := by
  obtain ⟨h1, h2, h3, h4⟩ := h
  simp only [Lockstep, addVertex, List.length_append, List.length_cons, List.length_nil, h1, h2,
    h3, h4]
  exact ⟨trivial, trivial, trivial, trivial⟩

/-! ## Concrete runs -/

theorem toInt_intCast (n : ℤ) : toInt (n : ℚ) = n := by
  unfold toInt
  split <;> simp

theorem sampleCalls_run : runCalls sampleCalls (TextBuffer.construct ⟨0, 0⟩) = some sampleBuffer := by
  simp [sampleCalls, runCalls, Call.run, addText, addTextLoop, addCharacter, decoration, addQuad,
    addVertex, clear, TextBuffer.construct, decoratedMarkup, plainMarkup, sampleFont, newline,
    sampleGlyph, sampleBlack, sampleBuffer, Vec2.s, Vec2.t]
  norm_num [toInt, Int.ceil_neg]

/-! ## Claims about the geometry buffer and the quad emitter -/

/-- C1. In every buffer reached from a newly constructed one by `addText` and
`clear` calls that complete (no null sentinel glyph is dereferenced), the index
list has length `6 * q` and the position list has length `4 * q` for one quad
count `q`, and every index is strictly below the number of positions. -/
theorem index_vertex_invariant (origin : Vec2) (calls : List Call) (b : TextBuffer)
    (hcalls : ∀ c ∈ calls, c.isLayout = true)
    (hrun : runCalls calls (TextBuffer.construct origin) = some b) :
    ∃ q, b.indices_.length = 6 * q ∧ b.xyz_.length = 4 * q ∧
      ∀ i ∈ b.indices_, i < b.xyz_.length := by
  obtain ⟨q, hx, hi⟩ := wound_of_layout_calls hcalls hrun
  refine ⟨q, ?_, hx, ?_⟩
  · rw [hi, length_windingOf]
  · rw [hi, hx]
    exact mem_windingOf_lt q

/-- Witness of C1: the three sample calls end in a buffer of two quads. -/
theorem index_vertex_invariant_witness :
    (∀ c ∈ sampleCalls, c.isLayout = true) ∧
    runCalls sampleCalls (TextBuffer.construct ⟨0, 0⟩) = some sampleBuffer ∧
    ∃ q, sampleBuffer.indices_.length = 6 * q ∧ sampleBuffer.xyz_.length = 4 * q ∧
      ∀ i ∈ sampleBuffer.indices_, i < sampleBuffer.xyz_.length :=
  ⟨by simp [sampleCalls, Call.isLayout], sampleCalls_run,
    index_vertex_invariant ⟨0, 0⟩ sampleCalls sampleBuffer
      (by simp [sampleCalls, Call.isLayout]) sampleCalls_run⟩

/-- C2. `addVertex` grows positions, UVs, colours, shifts and gammas by exactly
one element each, and in every buffer reached from a newly constructed one by
any sequence of `addText`, `addCharacter`, `addQuad`, `addVertex` and `clear`
calls the five sequences have the same length. -/
theorem lockstep_invariant :
    (∀ (b : TextBuffer) (position : Vec3) (texture : Vec2) (color : Vec4) (shift gamma : ℚ),
      (addVertex b position texture color shift gamma).xyz_.length = b.xyz_.length + 1 ∧
      (addVertex b position texture color shift gamma).uv_.length = b.uv_.length + 1 ∧
      (addVertex b position texture color shift gamma).rgba_.length = b.rgba_.length + 1 ∧
      (addVertex b position texture color shift gamma).shift_.length = b.shift_.length + 1 ∧
      (addVertex b position texture color shift gamma).gamma_.length = b.gamma_.length + 1) ∧
    (∀ (origin : Vec2) (calls : List Call) (b : TextBuffer),
      runCalls calls (TextBuffer.construct origin) = some b →
      b.uv_.length = b.xyz_.length ∧ b.rgba_.length = b.xyz_.length ∧
        b.shift_.length = b.xyz_.length ∧ b.gamma_.length = b.xyz_.length) := by
  refine ⟨?_, ?_⟩
  · intro b position texture color shift gamma
    simp [addVertex]
  · intro origin calls b hrun
    exact runCalls_keeps calls _ b
      (fun c _ => keeps_of_any lockstep_quadStable lockstep_clear lockstep_addVertex c) hrun
      ⟨rfl, rfl, rfl, rfl⟩

/-- Witness of C2: the sample calls followed by one direct `addVertex`. -/
theorem lockstep_invariant_witness :
    runCalls (sampleCalls ++ [Call.addVertex ⟨1, 2, 0⟩ ⟨0, 0⟩ ⟨1, 1, 1, 1⟩ (1 / 2) 1])
        (TextBuffer.construct ⟨0, 0⟩)
      = some (addVertex sampleBuffer ⟨1, 2, 0⟩ ⟨0, 0⟩ ⟨1, 1, 1, 1⟩ (1 / 2) 1) ∧
    (addVertex sampleBuffer ⟨1, 2, 0⟩ ⟨0, 0⟩ ⟨1, 1, 1, 1⟩ (1 / 2) 1).uv_.length = 9 ∧
    (addVertex sampleBuffer ⟨1, 2, 0⟩ ⟨0, 0⟩ ⟨1, 1, 1, 1⟩ (1 / 2) 1).gamma_.length = 9 := by
  have hrun : runCalls (sampleCalls ++ [Call.addVertex ⟨1, 2, 0⟩ ⟨0, 0⟩ ⟨1, 1, 1, 1⟩ (1 / 2) 1])
      (TextBuffer.construct ⟨0, 0⟩)
      = some (addVertex sampleBuffer ⟨1, 2, 0⟩ ⟨0, 0⟩ ⟨1, 1, 1, 1⟩ (1 / 2) 1) := by
    have h := sampleCalls_run
    simp only [sampleCalls, runCalls, List.cons_append, List.nil_append] at h ⊢
    simp only [Option.bind_eq_some] at h ⊢
    obtain ⟨b1, h1, b2, h2, b3, h3, h4⟩ := h
    refine ⟨b1, h1, b2, h2, b3, h3, ?_⟩
    simp only [Option.some.injEq] at h4
    subst h4
    exact ⟨_, rfl, rfl⟩
  have h := lockstep_invariant.2 ⟨0, 0⟩ _ _ hrun
  refine ⟨hrun, ?_, ?_⟩
  · rw [h.1]; rfl
  · rw [h.2.2.2]; rfl

/-- C5. Every `addQuad` call made when the buffer holds `v` vertices appends
exactly the six indices `v, v+2, v+1, v, v+3, v+2`, in that order; consequently,
in every buffer reached from a newly constructed one by `addText` and `clear`
calls, the `k`-th group of six indices is `(4k, 4k+2, 4k+1, 4k, 4k+3, 4k+2)` and
does not start with `(4k, 4k+1, 4k+2)`. -/
theorem quad_winding :
    (∀ (b : TextBuffer) (xy0 xy1 uv0 uv1 : Vec2) (color : Vec4) (gamma : ℚ),
      (addQuad b xy0 xy1 uv0 uv1 color gamma).indices_ =
        b.indices_ ++ [b.xyz_.length, b.xyz_.length + 2, b.xyz_.length + 1,
          b.xyz_.length, b.xyz_.length + 3, b.xyz_.length + 2]) ∧
    (∀ (origin : Vec2) (calls : List Call) (b : TextBuffer) (k : ℕ),
      (∀ c ∈ calls, c.isLayout = true) →
      runCalls calls (TextBuffer.construct origin) = some b →
      6 * k < b.indices_.length →
      (b.indices_.drop (6 * k)).take 6 =
          [4 * k, 4 * k + 2, 4 * k + 1, 4 * k, 4 * k + 3, 4 * k + 2] ∧
        (b.indices_.drop (6 * k)).take 3 ≠ [4 * k, 4 * k + 1, 4 * k + 2]) := by
  refine ⟨fun b xy0 xy1 uv0 uv1 color gamma => addQuad_indices b xy0 xy1 uv0 uv1 color gamma, ?_⟩
  intro origin calls b k hcalls hrun hk
  obtain ⟨q, -, hi⟩ := wound_of_layout_calls hcalls hrun
  have hkq : k < q := by
    rw [hi, length_windingOf] at hk
    omega
  have hgroup := windingOf_group q k hkq
  rw [← hi] at hgroup
  refine ⟨hgroup, ?_⟩
  have h3 : (b.indices_.drop (6 * k)).take 3 = [4 * k, 4 * k + 2, 4 * k + 1] := by
    have h := congrArg (List.take 3) hgroup
    rw [List.take_take] at h
    exact h
  rw [h3]
  intro h
  simp only [List.cons.injEq, and_true, true_and] at h
  omega

/-- Witness of C5: the second quad of the sample buffer. -/
theorem quad_winding_witness :
    (∀ c ∈ sampleCalls, c.isLayout = true) ∧
    runCalls sampleCalls (TextBuffer.construct ⟨0, 0⟩) = some sampleBuffer ∧
    6 * 1 < sampleBuffer.indices_.length ∧
    (sampleBuffer.indices_.drop (6 * 1)).take 6 =
      [4 * 1, 4 * 1 + 2, 4 * 1 + 1, 4 * 1, 4 * 1 + 3, 4 * 1 + 2] ∧
    (sampleBuffer.indices_.drop (6 * 1)).take 3 ≠ [4 * 1, 4 * 1 + 1, 4 * 1 + 2] :=
  ⟨by simp [sampleCalls, Call.isLayout], sampleCalls_run, by decide,
    quad_winding.2 ⟨0, 0⟩ sampleCalls sampleBuffer 1
      (by simp [sampleCalls, Call.isLayout]) sampleCalls_run (by decide)⟩

/-- C10. For all corners `xy0`, `xy1` and UV corners `uv0`, `uv1`, `addQuad`
appends exactly four vertices, in order, with positions `(xy0.x, xy0.y, 0)`,
`(xy0.x, xy1.y, 0)`, `(xy1.x, xy1.y, 0)`, `(xy1.x, xy0.y, 0)` and texture
coordinates `(uv0.s, uv1.t)`, `(uv0.s, uv0.t)`, `(uv1.s, uv0.t)`,
`(uv1.s, uv1.t)`, each carrying the given colour and the given gamma. -/
theorem addQuad_output (b : TextBuffer) (xy0 xy1 uv0 uv1 : Vec2) (color : Vec4) (gamma : ℚ) :
    (addQuad b xy0 xy1 uv0 uv1 color gamma).xyz_ =
      b.xyz_ ++ [⟨xy0.x, xy0.y, 0⟩, ⟨xy0.x, xy1.y, 0⟩, ⟨xy1.x, xy1.y, 0⟩, ⟨xy1.x, xy0.y, 0⟩] ∧
    (addQuad b xy0 xy1 uv0 uv1 color gamma).uv_ =
      b.uv_ ++ [⟨uv0.s, uv1.t⟩, ⟨uv0.s, uv0.t⟩, ⟨uv1.s, uv0.t⟩, ⟨uv1.s, uv1.t⟩] ∧
    (addQuad b xy0 xy1 uv0 uv1 color gamma).rgba_ = b.rgba_ ++ [color, color, color, color] ∧
    (addQuad b xy0 xy1 uv0 uv1 color gamma).gamma_ = b.gamma_ ++ [gamma, gamma, gamma, gamma] ∧
    (addQuad b xy0 xy1 uv0 uv1 color gamma).shift_.length = b.shift_.length + 4 := by
  refine ⟨addQuad_xyz b xy0 xy1 uv0 uv1 color gamma, addQuad_uv b xy0 xy1 uv0 uv1 color gamma,
    addQuad_rgba b xy0 xy1 uv0 uv1 color gamma, addQuad_gamma b xy0 xy1 uv0 uv1 color gamma, ?_⟩
  rw [addQuad_shift]
  simp

/-! ## The layout loop -/

theorem addCharacter_previous (b : TextBuffer) (pen : Vec2) (markup : Markup)
    (current previous other : ℤ) :
    addCharacter b pen markup current previous = addCharacter b pen markup current other := rfl

theorem addTextLoop_previous (markup : Markup) (previous other : ℤ) (text : List ℤ)
    (st : TextBuffer × Vec2) :
    addTextLoop markup previous text st = addTextLoop markup other text st := by
  cases text <;> rfl

theorem addTextLoop_append (markup : Markup) (xs ys : List ℤ) :
    ∀ (previous : ℤ) (st : TextBuffer × Vec2),
    addTextLoop markup previous (xs ++ ys) st =
      (addTextLoop markup previous xs st).bind (addTextLoop markup previous ys) := by
  induction xs with
  | nil => intro previous st; rfl
  | cons c cs ih =>
    intro previous st
    have hp : addTextLoop markup previous ys = addTextLoop markup c ys :=
      funext fun fin => addTextLoop_previous markup previous c ys fin
    show (addCharacter st.1 st.2 markup c previous).bind (addTextLoop markup c (cs ++ ys)) =
      ((addCharacter st.1 st.2 markup c previous).bind (addTextLoop markup c cs)).bind
        (addTextLoop markup previous ys)
    rw [Option.bind_assoc, hp]
    congr 1
    funext mid
    exact ih c mid

theorem addTextLoop_singleton (markup : Markup) (previous c : ℤ) (st : TextBuffer × Vec2) :
    addTextLoop markup previous [c] st = addCharacter st.1 st.2 markup c previous := by
  simp [addTextLoop]

theorem addText_eq_loop (b : TextBuffer) (pen : Vec2) (markup : Markup) (text : List ℤ) :
    addText b pen markup text =
      addTextLoop markup 0 (text.headD 0 :: text.tail)
        (if b.xyz_.length = 0 then { b with origin_ := pen } else b, pen) := rfl

theorem headD_cons_tail {text : List ℤ} (h : text ≠ []) : text.headD 0 :: text.tail = text := by
  cases text with
  | nil => exact absurd rfl h
  | cons c cs => rfl

/-! ## Counting what a character emits -/

theorem decoration_effect {cond : Bool} {black : Option Glyph} {xy0 xy1 : Vec2} {color : Vec4}
    {gamma : ℚ} {e r : Emitted} (h : decoration cond black xy0 xy1 color gamma e = some r) :
    r.buf.xyz_.length = e.buf.xyz_.length + 4 * (if cond then 1 else 0) ∧
    r.buf.indices_.length = e.buf.indices_.length + 6 * (if cond then 1 else 0) ∧
    r.buf.items_ = e.buf.items_ ∧ r.buf.origin_ = e.buf.origin_ ∧
    r.buf.lineStart_ = e.buf.lineStart_ ∧
    r.vcount = e.vcount + 4 * (if cond then 1 else 0) ∧
    r.icount = e.icount + 6 * (if cond then 1 else 0) := by
  unfold decoration at h
  cases cond with
  | false =>
    simp only [Bool.false_eq_true, if_false, Option.some.injEq] at h
    subst h
    simp
  | true =>
    cases black with
    | none => simp at h
    | some bl =>
      simp only [if_true, Option.some.injEq] at h
      subst h
      simp [addQuad_xyz, addQuad_indices, addQuad_items, addQuad_origin, addQuad_lineStart,
        quadPositions, quadIndices]

theorem decoration_some (cond : Bool) (bl : Glyph) (xy0 xy1 : Vec2) (color : Vec4)
    (gamma : ℚ) (e : Emitted) :
    decoration cond (some bl) xy0 xy1 color gamma e =
      some (if cond then
        ⟨addQuad e.buf xy0 xy1 bl.st_0 bl.st_1 color gamma, e.vcount + 4, e.icount + 6⟩
      else e) := by
  cases cond <;> rfl

theorem decoration_isSome (cond : Bool) (black : Option Glyph) (xy0 xy1 : Vec2) (color : Vec4)
    (gamma : ℚ) (e : Emitted) :
    (decoration cond black xy0 xy1 color gamma e).isSome = true ↔
      (cond = true → black.isSome = true) := by
  unfold decoration
  cases cond <;> cases black <;> simp

theorem decorations_eq (markup : Markup) :
    markup.decorations =
      (if decide (markup.backgroundColor_.a > 0) = true then 1 else 0)
        + (if markup.underline_ = true then 1 else 0)
        + (if markup.overline_ = true then 1 else 0)
        + (if markup.strikethrough_ = true then 1 else 0) := by
  simp [Markup.decorations]

theorem addCharacter_effect {b r : TextBuffer} {pen q : Vec2} {markup : Markup}
    {current previous : ℤ} (h : addCharacter b pen markup current previous = some (r, q)) :
    r.xyz_.length =
      b.xyz_.length + 4 * ((if markup.font_.resolves current then 1 else 0)
        * (1 + markup.decorations)) ∧
    r.indices_.length =
      b.indices_.length + 6 * ((if markup.font_.resolves current then 1 else 0)
        * (1 + markup.decorations)) ∧
    r.items_.length = b.items_.length + (if markup.font_.resolves current then 1 else 0) ∧
    r.origin_ = b.origin_ ∧
    q.x = (if current = newline then b.origin_.x else pen.x + markup.font_.advanceOf current) := by
  unfold addCharacter at h
  split at h
  · rename_i hc
    simp only [Option.some.injEq, Prod.mk.injEq] at h
    obtain ⟨rfl, rfl⟩ := h
    simp [TextureFont.resolves, hc]
  · rename_i hc
    split at h
    · rename_i hg
      simp only [Option.some.injEq, Prod.mk.injEq] at h
      obtain ⟨rfl, rfl⟩ := h
      simp [TextureFont.resolves, TextureFont.advanceOf, hc, hg]
    · rename_i g hg
      simp only [Option.bind_eq_some, Option.some.injEq, Prod.mk.injEq] at h
      obtain ⟨e1, h1, e2, h2, e3, h3, e4, h4, rfl, rfl⟩ := h
      obtain ⟨x1, i1, t1, o1, -, -, -⟩ := decoration_effect h1
      obtain ⟨x2, i2, t2, o2, -, -, -⟩ := decoration_effect h2
      obtain ⟨x3, i3, t3, o3, -, -, -⟩ := decoration_effect h3
      obtain ⟨x4, i4, t4, o4, -, -, -⟩ := decoration_effect h4
      have hr : markup.font_.resolves current = true := by
        simp [TextureFont.resolves, hc, hg]
      simp only [hr, if_true, hc, if_false, addQuad_xyz, addQuad_indices, addQuad_items,
        addQuad_origin, List.length_append, quadPositions, quadIndices, List.length_cons,
        List.length_nil, x4, x3, x2, x1, i4, i3, i2, i1, t4, t3, t2, t1, o4, o3, o2, o1,
        decorations_eq markup, TextureFont.advanceOf, hg]
      refine ⟨?_, ?_, trivial, trivial, trivial⟩ <;> omega

theorem addCharacter_isSome (b : TextBuffer) (pen : Vec2) (markup : Markup)
    (current previous : ℤ) :
    (addCharacter b pen markup current previous).isSome = true ↔
      (markup.font_.resolves current = true → markup.sentinelReady) := by
  unfold addCharacter
  split
  · rename_i hc
    simp [TextureFont.resolves, hc]
  · rename_i hc
    split
    · rename_i hg
      simp [TextureFont.resolves, hg]
    · rename_i g hg
      have hr : markup.font_.resolves current = true := by
        simp [TextureFont.resolves, hc, hg]
      simp only [hr, forall_const, Markup.sentinelReady, decorations_eq markup]
      cases hb : markup.font_.glyph (-1) with
      | some bl => simp only [decoration_some, Option.some_bind, Option.isSome_some]; simp
      | none =>
        cases h1 : decide (markup.backgroundColor_.a > 0) <;> cases h2 : markup.underline_ <;>
          cases h3 : markup.overline_ <;> cases h4 : markup.strikethrough_ <;>
          simp [decoration]

theorem resolved_cons (font : TextureFont) (c : ℤ) (cs : List ℤ) :
    font.resolved (c :: cs) = (if font.resolves c then 1 else 0) + font.resolved cs := by
  unfold TextureFont.resolved
  rw [List.filter_cons]
  split <;> simp [Nat.add_comm]

theorem resolved_filter_newline (font : TextureFont) (text : List ℤ) :
    font.resolved (text.filter fun c => decide (c ≠ newline)) = font.resolved text := by
  unfold TextureFont.resolved
  rw [List.filter_filter]
  congr 1
  apply List.filter_congr
  intro c _
  simp only [TextureFont.resolves]
  cases decide (c ≠ newline) <;> simp

theorem addTextLoop_effect (markup : Markup) (text : List ℤ) :
    ∀ (previous : ℤ) (st r : TextBuffer × Vec2),
    addTextLoop markup previous text st = some r →
    r.1.xyz_.length =
      st.1.xyz_.length + 4 * (markup.font_.resolved text * (1 + markup.decorations)) ∧
    r.1.indices_.length =
      st.1.indices_.length + 6 * (markup.font_.resolved text * (1 + markup.decorations)) ∧
    r.1.items_.length = st.1.items_.length + markup.font_.resolved text ∧
    r.1.origin_ = st.1.origin_ := by
  induction text with
  | nil =>
    intro previous st r h
    simp only [addTextLoop, Option.some.injEq] at h
    subst h
    simp [TextureFont.resolved]
  | cons c cs ih =>
    intro previous st r h
    simp only [addTextLoop, Option.bind_eq_some] at h
    obtain ⟨mid, h1, h2⟩ := h
    obtain ⟨x1, i1, t1, o1, -⟩ := addCharacter_effect (r := mid.1) (q := mid.2) h1
    obtain ⟨x2, i2, t2, o2⟩ := ih c mid r h2
    rw [x2, i2, t2, o2, x1, i1, t1, o1, resolved_cons]
    refine ⟨?_, ?_, ?_, rfl⟩ <;> ring

theorem addTextLoop_isSome (markup : Markup) (text : List ℤ) :
    ∀ (previous : ℤ) (st : TextBuffer × Vec2),
    (addTextLoop markup previous text st).isSome = true ↔
      (markup.font_.resolved text ≠ 0 → markup.sentinelReady) := by
  induction text with
  | nil =>
    intro previous st
    simp [addTextLoop, TextureFont.resolved]
  | cons c cs ih =>
    intro previous st
    rw [resolved_cons]
    constructor
    · intro h hne
      obtain ⟨r, hr⟩ := Option.isSome_iff_exists.mp h
      simp only [addTextLoop, Option.bind_eq_some] at hr
      obtain ⟨mid, h1, h2⟩ := hr
      have k1 := (addCharacter_isSome st.1 st.2 markup c previous).mp
        (Option.isSome_iff_exists.mpr ⟨mid, h1⟩)
      have k2 := (ih c mid).mp (Option.isSome_iff_exists.mpr ⟨r, h2⟩)
      by_cases hc : markup.font_.resolves c = true
      · exact k1 hc
      · apply k2
        simpa [hc] using hne
    · intro h
      have k1 : (addCharacter st.1 st.2 markup c previous).isSome = true := by
        rw [addCharacter_isSome]
        intro hc
        apply h
        simp [hc]
      obtain ⟨mid, h1⟩ := Option.isSome_iff_exists.mp k1
      have k2 : (addTextLoop markup c cs mid).isSome = true := by
        rw [ih c mid]
        intro hne
        apply h
        omega
      simp only [addTextLoop, h1, Option.some_bind]
      exact k2

theorem addText_isSome_of_ready (b : TextBuffer) (pen : Vec2) (markup : Markup)
    (text : List ℤ) (h : markup.sentinelReady) : (addText b pen markup text).isSome = true := by
  rw [addText_eq_loop, addTextLoop_isSome]
  exact fun _ => h

/-! ## The pen after a text -/

theorem advanceSum_append (font : TextureFont) (xs ys : List ℤ) :
    font.advanceSum (xs ++ ys) = font.advanceSum xs + font.advanceSum ys := by
  simp [TextureFont.advanceSum]

theorem addTextLoop_pen (markup : Markup) (text : List ℤ) :
    ∀ (previous : ℤ) (st r : TextBuffer × Vec2),
    addTextLoop markup previous text st = some r →
    r.2.x = (if newline ∈ text then st.1.origin_.x else st.2.x)
      + markup.font_.advanceSum (afterLastNewline text) := by
  induction text using List.reverseRecOn with
  | nil =>
    intro previous st r h
    simp only [addTextLoop, Option.some.injEq] at h
    subst h
    simp [afterLastNewline, TextureFont.advanceSum, List.rtakeWhile]
  | append_singleton xs c ih =>
    intro previous st r h
    rw [addTextLoop_append, Option.bind_eq_some] at h
    obtain ⟨mid, h1, h2⟩ := h
    rw [addTextLoop_singleton] at h2
    obtain ⟨-, -, -, -, hq⟩ := addCharacter_effect (r := r.1) (q := r.2) h2
    obtain ⟨-, -, -, ho⟩ := addTextLoop_effect markup xs previous st mid h1
    have hmid := ih previous st mid h1
    by_cases hc : c = newline
    · rw [hq, if_pos hc, ho]
      have : afterLastNewline (xs ++ [c]) = [] := by
        unfold afterLastNewline
        exact List.rtakeWhile_concat_neg _ _ _ (by simp [hc])
      rw [this, if_pos (by simp [hc])]
      simp [TextureFont.advanceSum]
    · rw [hq, if_neg hc, hmid]
      have : afterLastNewline (xs ++ [c]) = afterLastNewline xs ++ [c] := by
        unfold afterLastNewline
        exact List.rtakeWhile_concat_pos _ _ _ (by simp [hc])
      have hmem : (newline ∈ xs ++ [c]) ↔ newline ∈ xs := by
        simp [List.mem_append, Ne.symm hc]
      rw [this, advanceSum_append]
      simp only [hmem, TextureFont.advanceSum, List.map_cons, List.map_nil, List.sum_cons,
        List.sum_nil, add_zero]
      ring

/-! ## Claims about the layout engine -/

theorem sentinelReady_plain : plainMarkup.sentinelReady := by
  left
  simp [Markup.decorations, plainMarkup]

theorem sentinelReady_background : backgroundMarkup.sentinelReady := by
  right
  simp [backgroundMarkup, plainMarkup, sampleFont]

/-- C4. For every non-empty text laid out by `addText` on a buffer without
vertices from the start pen `p`, the call completes when the sentinel glyph is
available, the origin is `p`, and the final `pen.x` is `origin.x` plus the sum
of `advance.x` over the characters after the last newline (all of the text when
it has none) whose glyph resolves; a missing glyph contributes nothing. -/
theorem pen_advance (b : TextBuffer) (pen : Vec2) (markup : Markup) (text : List ℤ)
    (ht : text ≠ []) (hx : b.xyz_ = []) :
    (markup.sentinelReady → (addText b pen markup text).isSome = true) ∧
    ∀ (r : TextBuffer) (q : Vec2), addText b pen markup text = some (r, q) →
      r.origin_ = pen ∧
      q.x = r.origin_.x + markup.font_.advanceSum (afterLastNewline text) := by
  refine ⟨addText_isSome_of_ready b pen markup text, ?_⟩
  intro r q h
  rw [addText_eq_loop, headD_cons_tail ht] at h
  have hlen : b.xyz_.length = 0 := by rw [hx]; rfl
  rw [if_pos hlen] at h
  obtain ⟨-, -, -, ho⟩ := addTextLoop_effect markup text 0 _ _ h
  have hp := addTextLoop_pen markup text 0 _ _ h
  simp only [ite_self] at hp ho
  exact ⟨ho, by rw [hp, ho]⟩

/-- Witness of C4: `A`, newline, `B`, `Z` from pen `(1/2, 3)`; only `B` counts
(`Z` has no glyph), so the pen ends at `1/2 + 7`. -/
theorem pen_advance_witness :
    ([65, 10, 66, 90] : List ℤ) ≠ [] ∧ (TextBuffer.construct ⟨0, 0⟩).xyz_ = [] ∧
    (addText (TextBuffer.construct ⟨0, 0⟩) ⟨1 / 2, 3⟩ plainMarkup [65, 10, 66, 90]).map
      (fun r => r.2.x) = some (15 / 2) := by
  have h := pen_advance (TextBuffer.construct ⟨0, 0⟩) ⟨1 / 2, 3⟩ plainMarkup [65, 10, 66, 90]
    (by simp) rfl
  obtain ⟨⟨r, q⟩, hr⟩ := Option.isSome_iff_exists.mp (h.1 sentinelReady_plain)
  obtain ⟨ho, hq⟩ := h.2 r q hr
  refine ⟨by simp, rfl, ?_⟩
  rw [hr, Option.map_some', hq, ho]
  simp [afterLastNewline, List.rtakeWhile, newline, TextureFont.advanceSum,
    TextureFont.advanceOf, plainMarkup, sampleFont, sampleGlyph]
  norm_num

/-- C6. For every text with at least one character that is not a newline,
every style, start pen and buffer (an empty one in particular), laying out the
text and laying out the text with its newlines removed produce the same number
of vertices, of indices and of layout items (and fail together); both complete
when the sentinel glyph is available. -/
theorem newline_emits_no_geometry (b : TextBuffer) (pen : Vec2) (markup : Markup)
    (text : List ℤ) (ht : ∃ c ∈ text, c ≠ newline) :
    (addText b pen markup text).map (fun r => r.1.counts) =
      (addText b pen markup (text.filter fun c => decide (c ≠ newline))).map
        (fun r => r.1.counts) ∧
    (markup.sentinelReady → (addText b pen markup text).isSome = true) := by
  refine ⟨?_, addText_isSome_of_ready b pen markup text⟩
  obtain ⟨c, hc, hne⟩ := ht
  have h1 : text ≠ [] := List.ne_nil_of_mem hc
  have h2 : (text.filter fun c => decide (c ≠ newline)) ≠ [] :=
    List.ne_nil_of_mem (List.mem_filter.mpr ⟨hc, by simpa using hne⟩)
  rw [addText_eq_loop, addText_eq_loop, headD_cons_tail h1, headD_cons_tail h2]
  generalize (if b.xyz_.length = 0 then { b with origin_ := pen } else b, pen) = st
  have hs := addTextLoop_isSome markup text 0 st
  have hf := addTextLoop_isSome markup (text.filter fun c => decide (c ≠ newline)) 0 st
  rw [resolved_filter_newline] at hf
  cases hl : addTextLoop markup 0 text st with
  | none =>
    cases hr : addTextLoop markup 0 (text.filter fun c => decide (c ≠ newline)) st with
    | none => rfl
    | some r =>
      rw [hr] at hf
      rw [hl, ← hf] at hs
      simp at hs
  | some l =>
    cases hr : addTextLoop markup 0 (text.filter fun c => decide (c ≠ newline)) st with
    | none =>
      rw [hr] at hf
      rw [hl, ← hf] at hs
      simp at hs
    | some r =>
      obtain ⟨x1, i1, t1, -⟩ := addTextLoop_effect markup text 0 st l hl
      obtain ⟨x2, i2, t2, -⟩ := addTextLoop_effect markup _ 0 st r hr
      rw [resolved_filter_newline] at x2 i2 t2
      simp only [Option.map_some', TextBuffer.counts, x1, i1, t1, x2, i2, t2]

/-- Witness of C6: `A`, newline, `B` against `AB`, every decoration on. -/
theorem newline_emits_no_geometry_witness :
    (∃ c ∈ ([65, 10, 66] : List ℤ), c ≠ newline) ∧
    (addText (TextBuffer.construct ⟨0, 0⟩) ⟨0, 0⟩ decoratedMarkup [65, 10, 66]).map
        (fun r => r.1.counts) =
      (addText (TextBuffer.construct ⟨0, 0⟩) ⟨0, 0⟩ decoratedMarkup [65, 66]).map
        (fun r => r.1.counts) :=
  ⟨⟨65, by simp, by simp [newline]⟩,
    (newline_emits_no_geometry (TextBuffer.construct ⟨0, 0⟩) ⟨0, 0⟩ decoratedMarkup [65, 10, 66]
      ⟨65, by simp, by simp [newline]⟩).1⟩

/-- C7. For every character that is not a newline and whose glyph lookup
returns no glyph, `addCharacter` completes and leaves the whole buffer (the
five vertex sequences, the index list, the item list, the line-start marker)
and the pen unchanged, whatever the style. -/
theorem missing_glyph_skip (b : TextBuffer) (pen : Vec2) (markup : Markup)
    (current previous : ℤ) (hc : current ≠ newline) (hg : markup.font_.glyph current = none) :
    addCharacter b pen markup current previous = some (b, pen) := by
  unfold addCharacter
  rw [if_neg hc]
  simp only [hg]

/-- Witness of C7: `Z` has no glyph in the sample font; every decoration is on. -/
theorem missing_glyph_skip_witness :
    (90 : ℤ) ≠ newline ∧ decoratedMarkup.font_.glyph 90 = none ∧
    addCharacter sampleBuffer ⟨1, 2⟩ decoratedMarkup 90 65 = some (sampleBuffer, ⟨1, 2⟩) :=
  ⟨by simp [newline], by simp [decoratedMarkup, plainMarkup, sampleFont],
    missing_glyph_skip sampleBuffer ⟨1, 2⟩ decoratedMarkup 90 65 (by simp [newline])
      (by simp [decoratedMarkup, plainMarkup, sampleFont])⟩

/-- C8 fails on the code: `addText` lays out `text[0]` before looking at the
length, and for an empty text that character is code `0`. With a font that has
a glyph for code `0`, the empty text appends one quad (4 vertices, 6 indices,
one item) to a new buffer and moves `pen.x` from `0` to `7`. -/
theorem addText_empty_emits :
    (addText (TextBuffer.construct ⟨0, 0⟩) ⟨0, 0⟩ nulMarkup []).map
      (fun r => (r.1.counts, r.2.x)) = some ((4, 6, 1), 7) := by
  simp [addText, addTextLoop, addCharacter, decoration, addQuad, addVertex,
    TextBuffer.construct, TextBuffer.counts, nulMarkup, nulFont, plainMarkup, sampleFont,
    newline, sampleGlyph]

/-- C9. For every non-empty text laid out on a buffer without vertices and
indices, with `R` the number of non-newline characters whose glyph resolves and
`D` the number of active decorations of the style, the call completes when the
sentinel glyph is available and the buffer ends with exactly `R * (1 + D)` quads:
`4 * (R * (1 + D))` vertices and `6 * (R * (1 + D))` indices. -/
theorem quad_count (b : TextBuffer) (pen : Vec2) (markup : Markup) (text : List ℤ)
    (ht : text ≠ []) (hx : b.xyz_ = []) (hi : b.indices_ = []) :
    (markup.sentinelReady → (addText b pen markup text).isSome = true) ∧
    ∀ (r : TextBuffer) (q : Vec2), addText b pen markup text = some (r, q) →
      r.xyz_.length = 4 * (markup.font_.resolved text * (1 + markup.decorations)) ∧
      r.indices_.length = 6 * (markup.font_.resolved text * (1 + markup.decorations)) := by
  refine ⟨addText_isSome_of_ready b pen markup text, ?_⟩
  intro r q h
  rw [addText_eq_loop, headD_cons_tail ht] at h
  obtain ⟨h1, h2, -, -⟩ := addTextLoop_effect markup text 0 _ _ h
  have e1 : (if b.xyz_.length = 0 then { b with origin_ := pen } else b).xyz_ = [] := by
    split <;> exact hx
  have e2 : (if b.xyz_.length = 0 then { b with origin_ := pen } else b).indices_ = [] := by
    split <;> exact hi
  simp only [e1, e2, List.length_nil, Nat.zero_add] at h1 h2
  exact ⟨h1, h2⟩

/-- Witness of C9: `Hi` with every decoration off gives 2 quads (8 vertices, 12
indices); `A` with only an opaque background gives 2 quads as well. -/
theorem quad_count_witness :
    ((addText (TextBuffer.construct ⟨0, 0⟩) ⟨0, 0⟩ plainMarkup [72, 105]).map
      (fun r => (r.1.xyz_.length, r.1.indices_.length)) = some (8, 12)) ∧
    ((addText (TextBuffer.construct ⟨0, 0⟩) ⟨0, 0⟩ backgroundMarkup [65]).map
      (fun r => (r.1.xyz_.length, r.1.indices_.length)) = some (8, 12)) := by
  have h1 := quad_count (TextBuffer.construct ⟨0, 0⟩) ⟨0, 0⟩ plainMarkup [72, 105]
    (by simp) rfl rfl
  have h2 := quad_count (TextBuffer.construct ⟨0, 0⟩) ⟨0, 0⟩ backgroundMarkup [65]
    (by simp) rfl rfl
  obtain ⟨⟨r1, q1⟩, hr1⟩ := Option.isSome_iff_exists.mp (h1.1 sentinelReady_plain)
  obtain ⟨⟨r2, q2⟩, hr2⟩ := Option.isSome_iff_exists.mp (h2.1 sentinelReady_background)
  have k1 := h1.2 r1 q1 hr1
  have k2 := h2.2 r2 q2 hr2
  have d1 : plainMarkup.decorations = 0 := by simp [Markup.decorations, plainMarkup]
  have d2 : backgroundMarkup.decorations = 1 := by
    simp [Markup.decorations, backgroundMarkup, plainMarkup]
  have n1 : plainMarkup.font_.resolved [72, 105] = 2 := by
    simp [TextureFont.resolved, TextureFont.resolves, plainMarkup, sampleFont, newline,
      List.filter]
  have n2 : backgroundMarkup.font_.resolved [65] = 1 := by
    simp [TextureFont.resolved, TextureFont.resolves, backgroundMarkup, plainMarkup, sampleFont,
      newline, List.filter]
  rw [d1, n1] at k1
  rw [d2, n2] at k2
  rw [hr1, hr2]
  simp [k1.1, k1.2, k2.1, k2.2]

/-! ## Layout does not read the line-start marker -/

theorem rel_bind {α β γ δ : Type} {r : α → β → Prop} {s : γ → δ → Prop}
    {x : Option α} {y : Option β} {f : α → Option γ} {g : β → Option δ}
    (h : Option.Rel r x y) (hf : ∀ a b, r a b → Option.Rel s (f a) (g b)) :
    Option.Rel s (x.bind f) (y.bind g) := by
  cases h with
  | some hab => exact hf _ _ hab
  | none => exact Option.Rel.none

theorem addQuad_sameLayout {b c : TextBuffer} (h : SameLayout b c) (xy0 xy1 uv0 uv1 : Vec2)
    (color : Vec4) (gamma : ℚ) :
    SameLayout (addQuad b xy0 xy1 uv0 uv1 color gamma)
      (addQuad c xy0 xy1 uv0 uv1 color gamma) := by
  obtain ⟨⟨hx, hu, hr, hs, hg, hi⟩, ht, ho⟩ := h
  refine ⟨⟨?_, ?_, ?_, ?_, ?_, ?_⟩, ?_, ?_⟩
  · rw [addQuad_xyz, addQuad_xyz, hx]
  · rw [addQuad_uv, addQuad_uv, hu]
  · rw [addQuad_rgba, addQuad_rgba, hr]
  · rw [addQuad_shift, addQuad_shift, hs]
  · rw [addQuad_gamma, addQuad_gamma, hg]
  · rw [addQuad_indices, addQuad_indices, hi, hx]
  · rw [addQuad_items, addQuad_items, ht]
  · rw [addQuad_origin, addQuad_origin, ho]

theorem decoration_sameLayout (cond : Bool) (black : Option Glyph) (xy0 xy1 : Vec2)
    (color : Vec4) (gamma : ℚ) {e f : Emitted} (h : SameLayout e.buf f.buf)
    (hv : f.vcount = e.vcount) (hi : f.icount = e.icount) :
    Option.Rel
      (fun r s => SameLayout r.buf s.buf ∧ s.vcount = r.vcount ∧ s.icount = r.icount)
      (decoration cond black xy0 xy1 color gamma e)
      (decoration cond black xy0 xy1 color gamma f) := by
  unfold decoration
  cases cond with
  | false => exact Option.Rel.some ⟨h, hv, hi⟩
  | true =>
    cases black with
    | none => exact Option.Rel.none
    | some bl =>
      exact Option.Rel.some ⟨addQuad_sameLayout h _ _ _ _ _ _, by simp [hv], by simp [hi]⟩

theorem addCharacter_sameLayout {b c : TextBuffer} (h : SameLayout b c) (pen : Vec2)
    (markup : Markup) (current previous other : ℤ) :
    Option.Rel (fun r s => SameLayout r.1 s.1 ∧ s.2 = r.2)
      (addCharacter b pen markup current previous)
      (addCharacter c pen markup current other) := by
  unfold addCharacter
  split
  · obtain ⟨⟨hx, hu, hr, hs, hg, hi⟩, ht, ho⟩ := h
    exact Option.Rel.some ⟨⟨⟨hx, hu, hr, hs, hg, hi⟩, ht, ho⟩, by simp [ho]⟩
  · split
    · exact Option.Rel.some ⟨h, rfl⟩
    · refine rel_bind (decoration_sameLayout _ _ _ _ _ _ h rfl rfl) ?_
      rintro e1 f1 ⟨k1, v1, i1⟩
      refine rel_bind (decoration_sameLayout _ _ _ _ _ _ k1 v1 i1) ?_
      rintro e2 f2 ⟨k2, v2, i2⟩
      refine rel_bind (decoration_sameLayout _ _ _ _ _ _ k2 v2 i2) ?_
      rintro e3 f3 ⟨k3, v3, i3⟩
      refine rel_bind (decoration_sameLayout _ _ _ _ _ _ k3 v3 i3) ?_
      rintro e4 f4 ⟨k4, v4, i4⟩
      obtain ⟨⟨hx, -, -, -, -, hi⟩, -, -⟩ := h
      obtain ⟨⟨qx, qu, qr, qs, qg, qi⟩, qt, qo⟩ :=
        addQuad_sameLayout k4
          ⟨pen.x + _, (toInt (pen.y + _ - _) : ℚ)⟩ ⟨pen.x + _ + _, (toInt (_ - _) : ℚ)⟩
          _ _ markup.foregroundColor_ markup.gamma_
      refine Option.Rel.some ⟨⟨⟨qx, qu, qr, qs, qg, qi⟩, ?_, qo⟩, rfl⟩
      simp only [qt, hx, hi, v4, i4]

theorem addTextLoop_sameLayout (markup : Markup) (text : List ℤ) :
    ∀ (previous : ℤ) (st su : TextBuffer × Vec2), SameLayout st.1 su.1 → su.2 = st.2 →
    Option.Rel (fun r s => SameLayout r.1 s.1 ∧ s.2 = r.2)
      (addTextLoop markup previous text st) (addTextLoop markup previous text su) := by
  induction text with
  | nil =>
    intro previous st su h hp
    exact Option.Rel.some ⟨h, hp⟩
  | cons c cs ih =>
    intro previous st su h hp
    simp only [addTextLoop]
    rw [hp]
    refine rel_bind (addCharacter_sameLayout h st.2 markup c previous previous) ?_
    rintro r s ⟨k, kp⟩
    exact ih c r s k kp

theorem map_eq_of_rel {α β : Type} {r : α → α → Prop} {f : α → β} {x y : Option α}
    (h : Option.Rel r x y) (hf : ∀ a b, r a b → f a = f b) : x.map f = y.map f := by
  cases h with
  | some hab => simp [hf _ _ hab]
  | none => rfl

/-- C3. For every text, style and start pen and for every buffer state,
`clear()` followed by `addText` produces exactly the positions, UVs, colours,
shifts, gammas, index list and item list (and the final pen) that the same
`addText` produces on a newly constructed buffer; both complete when the
sentinel glyph is available. -/
theorem idempotent_rebuild (b : TextBuffer) (origin pen : Vec2) (markup : Markup)
    (text : List ℤ) :
    (addText (clear b) pen markup text).map (fun r => (r.1.geometry, r.2)) =
      (addText (TextBuffer.construct origin) pen markup text).map
        (fun r => (r.1.geometry, r.2)) ∧
    (markup.sentinelReady → (addText (clear b) pen markup text).isSome = true) := by
  refine ⟨?_, addText_isSome_of_ready (clear b) pen markup text⟩
  rw [addText_eq_loop, addText_eq_loop]
  refine map_eq_of_rel (addTextLoop_sameLayout markup _ 0 _ _ ?_ rfl) ?_
  · exact ⟨⟨rfl, rfl, rfl, rfl, rfl, rfl⟩, rfl, rfl⟩
  · rintro ⟨r, p⟩ ⟨s, q⟩ ⟨⟨⟨hx, hu, hr, hs, hg, hi⟩, ht, -⟩, hq⟩
    simp only at hx hu hr hs hg hi ht hq
    simp only [TextBuffer.geometry, hx, hu, hr, hs, hg, hi, ht, hq]

/-- Witness of C3: `AB` laid out (the sample buffer), cleared and laid out
again gives the geometry of the sample buffer, which is what a single layout
of `AB` on a new buffer gives. -/
theorem idempotent_rebuild_witness :
    (addText (clear sampleBuffer) ⟨1 / 2, 3⟩ plainMarkup [65, 66]).map
        (fun r => (r.1.geometry, r.2)) = some (sampleBuffer.geometry, ⟨29 / 2, 3⟩) ∧
    (addText (TextBuffer.construct ⟨0, 0⟩) ⟨1 / 2, 3⟩ plainMarkup [65, 66]).map
        (fun r => (r.1.geometry, r.2)) = some (sampleBuffer.geometry, ⟨29 / 2, 3⟩) := by
  have hfresh : (addText (TextBuffer.construct ⟨0, 0⟩) ⟨1 / 2, 3⟩ plainMarkup [65, 66]).map
      (fun r => (r.1.geometry, r.2)) = some (sampleBuffer.geometry, ⟨29 / 2, 3⟩) := by
    simp [addText, addTextLoop, addCharacter, decoration, addQuad, addVertex,
      TextBuffer.construct, TextBuffer.geometry, plainMarkup, sampleFont, newline, sampleGlyph,
      sampleBuffer, Vec2.s, Vec2.t]
    norm_num [toInt, Int.ceil_neg]
  exact ⟨(idempotent_rebuild sampleBuffer ⟨0, 0⟩ ⟨1 / 2, 3⟩ plainMarkup [65, 66]).1.trans hfresh,
    hfresh⟩

/-! ## The quads of one character -/

theorem foldl_emit_xyz (ks : List Quad) : ∀ b : TextBuffer,
    (ks.foldl emit b).xyz_ = b.xyz_ ++ ks.flatMap fun k => quadPositions k.xy0 k.xy1 := by
  induction ks with
  | nil => intro b; simp
  | cons k ks ih =>
    intro b
    rw [List.foldl_cons, ih, emit, addQuad_xyz]
    simp

theorem foldl_emit_uv (ks : List Quad) : ∀ b : TextBuffer,
    (ks.foldl emit b).uv_ = b.uv_ ++ ks.flatMap fun k => quadUVs k.uv0 k.uv1 := by
  induction ks with
  | nil => intro b; simp
  | cons k ks ih =>
    intro b
    rw [List.foldl_cons, ih, emit, addQuad_uv]
    simp [quadUVs]

theorem foldl_emit_rgba (ks : List Quad) : ∀ b : TextBuffer,
    (ks.foldl emit b).rgba_ = b.rgba_ ++ ks.flatMap fun k => List.replicate 4 k.color := by
  induction ks with
  | nil => intro b; simp
  | cons k ks ih =>
    intro b
    rw [List.foldl_cons, ih, emit, addQuad_rgba]
    simp [List.replicate]

theorem foldl_emit_gamma (ks : List Quad) : ∀ b : TextBuffer,
    (ks.foldl emit b).gamma_ = b.gamma_ ++ ks.flatMap fun k => List.replicate 4 k.gamma := by
  induction ks with
  | nil => intro b; simp
  | cons k ks ih =>
    intro b
    rw [List.foldl_cons, ih, emit, addQuad_gamma]
    simp [List.replicate]

theorem foldl_emit_shift (ks : List Quad) : ∀ b : TextBuffer,
    (ks.foldl emit b).shift_ = b.shift_ ++ ks.flatMap fun k =>
      [k.xy0.x - toInt k.xy0.x, k.xy0.x - toInt k.xy0.x, k.xy1.x - toInt k.xy1.x,
        k.xy1.x - toInt k.xy1.x] := by
  induction ks with
  | nil => intro b; simp
  | cons k ks ih =>
    intro b
    rw [List.foldl_cons, ih, emit, addQuad_shift]
    simp

theorem foldl_emit_lengths (ks : List Quad) : ∀ b : TextBuffer,
    (ks.foldl emit b).xyz_.length = b.xyz_.length + 4 * ks.length ∧
    (ks.foldl emit b).indices_.length = b.indices_.length + 6 * ks.length ∧
    (ks.foldl emit b).items_ = b.items_ ∧ (ks.foldl emit b).origin_ = b.origin_ ∧
    (ks.foldl emit b).lineStart_ = b.lineStart_ := by
  induction ks with
  | nil => intro b; simp
  | cons k ks ih =>
    intro b
    obtain ⟨h1, h2, h3, h4, h5⟩ := ih (emit b k)
    rw [List.foldl_cons, h1, h2, h3, h4, h5]
    simp only [emit, addQuad_xyz, addQuad_indices, addQuad_items, addQuad_origin,
      addQuad_lineStart, List.length_append, quadPositions, quadIndices, List.length_cons,
      List.length_nil]
    refine ⟨?_, ?_, trivial, trivial, trivial⟩ <;> omega

theorem length_decorationQuads (pen : Vec2) (markup : Markup) (g : Glyph) (uv0 uv1 : Vec2) :
    (decorationQuads pen markup g uv0 uv1).length = markup.decorations := by
  unfold decorationQuads Markup.decorations
  by_cases h1 : markup.backgroundColor_.a > 0 <;> cases h2 : markup.underline_ <;>
    cases h3 : markup.overline_ <;> cases h4 : markup.strikethrough_ <;> simp [h1]

/-- A resolved character, sentinel glyph available: `addCharacter` is the
sequence of `addQuad` calls for the active decorations and the glyph body,
followed by the pen advance and one new layout item. -/
theorem addCharacter_resolved {b : TextBuffer} {pen : Vec2} {markup : Markup}
    {current previous : ℤ} {g bl : Glyph} (hc : current ≠ newline)
    (hg : markup.font_.glyph current = some g) (hb : markup.font_.glyph (-1) = some bl) :
    addCharacter b pen markup current previous =
      some ({ (decorationQuads pen markup g bl.st_0 bl.st_1 ++ [glyphQuad pen markup g]).foldl
                emit b with
              items_ := b.items_ ++ [⟨b.xyz_.length, ((4 * (markup.decorations + 1) : ℕ) : ℤ),
                b.indices_.length, ((6 * (markup.decorations + 1) : ℕ) : ℤ)⟩] },
        ⟨pen.x + g.advance_.x, pen.y⟩) := by
  unfold addCharacter
  rw [if_neg hc]
  simp only [hg, hb, decoration_some, Option.some_bind]
  unfold decorationQuads Markup.decorations
  by_cases h1 : markup.backgroundColor_.a > 0 <;> cases h2 : markup.underline_ <;>
    cases h3 : markup.overline_ <;> cases h4 : markup.strikethrough_ <;>
    simp [h1, emit, glyphQuad, addQuad_items]

theorem decorationQuads_of_none {markup : Markup} (hd : markup.decorations = 0) (pen : Vec2)
    (g : Glyph) (uv0 uv1 : Vec2) : decorationQuads pen markup g uv0 uv1 = [] := by
  have h := length_decorationQuads pen markup g uv0 uv1
  rw [hd] at h
  exact List.length_eq_zero.mp h

/-- A resolved character, no decoration active: only the glyph body is
emitted, and the sentinel glyph is not needed. -/
theorem addCharacter_resolved_bare {b : TextBuffer} {pen : Vec2} {markup : Markup}
    {current previous : ℤ} {g : Glyph} (hc : current ≠ newline)
    (hg : markup.font_.glyph current = some g) (hd : markup.decorations = 0) :
    addCharacter b pen markup current previous =
      some ({ emit b (glyphQuad pen markup g) with
              items_ := b.items_ ++ [⟨b.xyz_.length, ((4 * (markup.decorations + 1) : ℕ) : ℤ),
                b.indices_.length, ((6 * (markup.decorations + 1) : ℕ) : ℤ)⟩] },
        ⟨pen.x + g.advance_.x, pen.y⟩) := by
  have hd0 := hd
  unfold Markup.decorations at hd
  have h1 : ¬ markup.backgroundColor_.a > 0 := by
    intro h
    rw [if_pos h] at hd
    omega
  have h2 : markup.underline_ = false := by
    cases h : markup.underline_
    · rfl
    · rw [h] at hd; simp at hd
  have h3 : markup.overline_ = false := by
    cases h : markup.overline_
    · rfl
    · rw [h] at hd; simp at hd
  have h4 : markup.strikethrough_ = false := by
    cases h : markup.strikethrough_
    · rfl
    · rw [h] at hd; simp at hd
  unfold addCharacter
  rw [if_neg hc]
  simp [hg, decoration, h1, h2, h3, h4, hd0, emit, glyphQuad, addQuad_items]

/-- A resolved character that is laid out: the call is the sequence of `addQuad`
calls for the active decorations (with the UV corners of the sentinel glyph
when there is one) and the glyph body. -/
theorem addCharacter_emits {b r : TextBuffer} {pen q : Vec2} {markup : Markup}
    {current previous : ℤ} {g : Glyph} (hc : current ≠ newline)
    (hg : markup.font_.glyph current = some g)
    (h : addCharacter b pen markup current previous = some (r, q)) :
    ∃ uv0 uv1 : Vec2,
      (∀ bl, markup.font_.glyph (-1) = some bl → uv0 = bl.st_0 ∧ uv1 = bl.st_1) ∧
      r = { (decorationQuads pen markup g uv0 uv1 ++ [glyphQuad pen markup g]).foldl emit b with
            items_ := b.items_ ++ [⟨b.xyz_.length, ((4 * (markup.decorations + 1) : ℕ) : ℤ),
              b.indices_.length, ((6 * (markup.decorations + 1) : ℕ) : ℤ)⟩] } ∧
      q = ⟨pen.x + g.advance_.x, pen.y⟩ := by
  cases hb : markup.font_.glyph (-1) with
  | some bl =>
    rw [addCharacter_resolved hc hg hb] at h
    simp only [Option.some.injEq, Prod.mk.injEq] at h
    refine ⟨bl.st_0, bl.st_1, ?_, h.1.symm, h.2.symm⟩
    intro bl2 h2
    simp only [Option.some.injEq] at h2
    subst h2
    exact ⟨rfl, rfl⟩
  | none =>
    have hr : markup.font_.resolves current = true := by
      simp [TextureFont.resolves, hc, hg]
    have hs := (addCharacter_isSome b pen markup current previous).mp
      (Option.isSome_iff_exists.mpr ⟨(r, q), h⟩) hr
    have hd : markup.decorations = 0 := by
      rcases hs with hs | hs
      · exact hs
      · rw [hb] at hs; simp at hs
    rw [addCharacter_resolved_bare hc hg hd] at h
    simp only [Option.some.injEq, Prod.mk.injEq] at h
    refine ⟨⟨0, 0⟩, ⟨0, 0⟩, ?_, ?_, h.2.symm⟩
    · intro bl h2; simp at h2
    · rw [decorationQuads_of_none hd]
      exact h.1.symm

theorem addCharacter_some_of_ready (b : TextBuffer) (pen : Vec2) (markup : Markup)
    (current previous : ℤ) (hs : markup.sentinelReady) :
    ∃ r q, addCharacter b pen markup current previous = some (r, q) := by
  have h := (addCharacter_isSome b pen markup current previous).mpr fun _ => hs
  obtain ⟨⟨r, q⟩, hr⟩ := Option.isSome_iff_exists.mp h
  exact ⟨r, q, hr⟩

theorem flatMap_ite_singleton {α β : Type} (c : Prop) [Decidable c] (k : α) (f : α → List β) :
    (if c then [k] else []).flatMap f = if c then f k else [] := by
  split <;> simp

theorem decorationQuads_positions (pen : Vec2) (markup : Markup) (g : Glyph) (uv0 uv1 : Vec2) :
    ((decorationQuads pen markup g uv0 uv1).flatMap fun k => quadPositions k.xy0 k.xy1) =
      (if markup.backgroundColor_.a > 0 then
          rectangle pen g (pen.y + markup.font_.descender)
            (markup.font_.height + markup.font_.linegap)
        else [])
      ++ (if markup.underline_ then
          rectangle pen g (pen.y + markup.font_.underlinePosition)
            markup.font_.underlineThickness
        else [])
      ++ (if markup.overline_ then
          rectangle pen g (pen.y + markup.font_.ascender) markup.font_.underlineThickness
        else [])
      ++ (if markup.strikethrough_ then
          rectangle pen g (pen.y + 33 / 100 * markup.font_.ascender)
            markup.font_.underlineThickness
        else []) := by
  unfold decorationQuads
  simp only [List.flatMap_append, flatMap_ite_singleton, rectangle]
  have e1 : pen.y + markup.font_.descender + markup.font_.height + markup.font_.linegap =
      pen.y + markup.font_.descender + (markup.font_.height + markup.font_.linegap) := by ring
  have e2 : pen.y + markup.font_.ascender * (33 / 100) =
      pen.y + 33 / 100 * markup.font_.ascender := by ring
  rw [e1, e2]

theorem decorationQuads_uvs (pen : Vec2) (markup : Markup) (g : Glyph) (uv0 uv1 : Vec2) :
    ((decorationQuads pen markup g uv0 uv1).flatMap fun k => quadUVs k.uv0 k.uv1) =
      (if markup.backgroundColor_.a > 0 then quadUVs uv0 uv1 else [])
      ++ (if markup.underline_ then quadUVs uv0 uv1 else [])
      ++ (if markup.overline_ then quadUVs uv0 uv1 else [])
      ++ (if markup.strikethrough_ then quadUVs uv0 uv1 else []) := by
  unfold decorationQuads
  simp only [List.flatMap_append, flatMap_ite_singleton]

/-! ## Claims about the quads of one character -/

/-- C16. For every resolved character with glyph `g` at pen `p`, laid out with
the sentinel glyph available, each active decoration's quad has
`corner0 = (p.x, y0)` and `corner1 = (p.x + g.advance.x, y0 + h)`, where
`(y0, h)` is `(p.y + descender, height + linegap)` for the background,
`(p.y + underlinePosition, underlineThickness)` for the underline,
`(p.y + ascender, underlineThickness)` for the overline and
`(p.y + 0.33 * ascender, underlineThickness)` for the strikethrough; the four
vertices of the glyph body follow. -/
theorem decoration_rectangles (b : TextBuffer) (pen : Vec2) (markup : Markup)
    (current previous : ℤ) (g : Glyph) (hc : current ≠ newline)
    (hg : markup.font_.glyph current = some g) (hs : markup.sentinelReady) :
    ∃ (r : TextBuffer) (q : Vec2) (body : List Vec3),
      addCharacter b pen markup current previous = some (r, q) ∧ body.length = 4 ∧
      r.xyz_ = b.xyz_
        ++ (if markup.backgroundColor_.a > 0 then
            rectangle pen g (pen.y + markup.font_.descender)
              (markup.font_.height + markup.font_.linegap)
          else [])
        ++ (if markup.underline_ then
            rectangle pen g (pen.y + markup.font_.underlinePosition)
              markup.font_.underlineThickness
          else [])
        ++ (if markup.overline_ then
            rectangle pen g (pen.y + markup.font_.ascender) markup.font_.underlineThickness
          else [])
        ++ (if markup.strikethrough_ then
            rectangle pen g (pen.y + 33 / 100 * markup.font_.ascender)
              markup.font_.underlineThickness
          else [])
        ++ body := by
  obtain ⟨r, q, h⟩ := addCharacter_some_of_ready b pen markup current previous hs
  obtain ⟨uv0, uv1, -, hr, -⟩ := addCharacter_emits hc hg h
  refine ⟨r, q, quadPositions (glyphQuad pen markup g).xy0 (glyphQuad pen markup g).xy1, h, rfl,
    ?_⟩
  have hx : r.xyz_ =
      ((decorationQuads pen markup g uv0 uv1 ++ [glyphQuad pen markup g]).foldl emit b).xyz_ := by
    rw [hr]
  rw [hx, foldl_emit_xyz, List.flatMap_append, decorationQuads_positions]
  simp only [List.flatMap_cons, List.flatMap_nil, List.append_nil, List.append_assoc]

/-- Witness of C16: `A` at pen `(1/2, 3)` with all four decorations on. -/
theorem decoration_rectangles_witness :
    (65 : ℤ) ≠ newline ∧ decoratedMarkup.font_.glyph 65 = some sampleGlyph ∧
    ∃ (r : TextBuffer) (q : Vec2) (body : List Vec3),
      addCharacter (TextBuffer.construct ⟨0, 0⟩) ⟨1 / 2, 3⟩ decoratedMarkup 65 0 = some (r, q) ∧
      body.length = 4 ∧
      r.xyz_ =
        [⟨1 / 2, 0, 0⟩, ⟨1 / 2, 15, 0⟩, ⟨15 / 2, 15, 0⟩, ⟨15 / 2, 0, 0⟩,
          ⟨1 / 2, 1, 0⟩, ⟨1 / 2, 2, 0⟩, ⟨15 / 2, 2, 0⟩, ⟨15 / 2, 1, 0⟩,
          ⟨1 / 2, 14, 0⟩, ⟨1 / 2, 15, 0⟩, ⟨15 / 2, 15, 0⟩, ⟨15 / 2, 14, 0⟩,
          ⟨1 / 2, 663 / 100, 0⟩, ⟨1 / 2, 763 / 100, 0⟩, ⟨15 / 2, 763 / 100, 0⟩,
          ⟨15 / 2, 663 / 100, 0⟩] ++ body := by
  have hc : (65 : ℤ) ≠ newline := by simp [newline]
  have hg : decoratedMarkup.font_.glyph 65 = some sampleGlyph := by
    simp [decoratedMarkup, plainMarkup, sampleFont]
  have hs : decoratedMarkup.sentinelReady := by
    right
    simp [decoratedMarkup, plainMarkup, sampleFont]
  obtain ⟨r, q, body, h, hl, hx⟩ :=
    decoration_rectangles (TextBuffer.construct ⟨0, 0⟩) ⟨1 / 2, 3⟩ decoratedMarkup 65 0 sampleGlyph
      hc hg hs
  refine ⟨hc, hg, r, q, body, h, hl, ?_⟩
  rw [hx]
  simp [rectangle, quadPositions, decoratedMarkup, plainMarkup, sampleFont, sampleGlyph,
    TextBuffer.construct]
  norm_num

theorem length_flatMap_const {α β : Type} (f : α → List β) (n : ℕ) (hf : ∀ k, (f k).length = n)
    (ks : List α) : (ks.flatMap f).length = n * ks.length := by
  induction ks with
  | nil => rfl
  | cons k ks ih =>
    rw [List.flatMap_cons, List.length_append, hf, ih, List.length_cons]
    ring

/-- C17. For every resolved character laid out with the sentinel glyph
available, the quads appear in the order background, underline, overline,
strikethrough (those that are active) with the glyph body last: the positions
are the decoration rectangles in that order followed by the body corners, and,
in step with them, every decoration quad carries the texture coordinates of the
UV rectangle of the sentinel glyph (code `-1`) while the glyph body carries
those of the UV rectangle of the character's own glyph. -/
theorem decoration_order_texture (b : TextBuffer) (pen : Vec2) (markup : Markup)
    (current previous : ℤ) (g : Glyph) (hc : current ≠ newline)
    (hg : markup.font_.glyph current = some g) (hs : markup.sentinelReady) :
    ∃ (r : TextBuffer) (q : Vec2) (uv0 uv1 body0 body1 : Vec2),
      addCharacter b pen markup current previous = some (r, q) ∧
      (∀ bl, markup.font_.glyph (-1) = some bl → uv0 = bl.st_0 ∧ uv1 = bl.st_1) ∧
      r.xyz_ = b.xyz_
        ++ (if markup.backgroundColor_.a > 0 then
            rectangle pen g (pen.y + markup.font_.descender)
              (markup.font_.height + markup.font_.linegap)
          else [])
        ++ (if markup.underline_ then
            rectangle pen g (pen.y + markup.font_.underlinePosition)
              markup.font_.underlineThickness
          else [])
        ++ (if markup.overline_ then
            rectangle pen g (pen.y + markup.font_.ascender) markup.font_.underlineThickness
          else [])
        ++ (if markup.strikethrough_ then
            rectangle pen g (pen.y + 33 / 100 * markup.font_.ascender)
              markup.font_.underlineThickness
          else [])
        ++ quadPositions body0 body1 ∧
      r.uv_ = b.uv_
        ++ (if markup.backgroundColor_.a > 0 then quadUVs uv0 uv1 else [])
        ++ (if markup.underline_ then quadUVs uv0 uv1 else [])
        ++ (if markup.overline_ then quadUVs uv0 uv1 else [])
        ++ (if markup.strikethrough_ then quadUVs uv0 uv1 else [])
        ++ quadUVs g.st_0 g.st_1 := by
  obtain ⟨r, q, h⟩ := addCharacter_some_of_ready b pen markup current previous hs
  obtain ⟨uv0, uv1, huv, hr, -⟩ := addCharacter_emits hc hg h
  refine ⟨r, q, uv0, uv1, (glyphQuad pen markup g).xy0, (glyphQuad pen markup g).xy1, h, huv,
    ?_, ?_⟩
  · have hx : r.xyz_ =
        ((decorationQuads pen markup g uv0 uv1 ++ [glyphQuad pen markup g]).foldl emit b).xyz_ := by
      rw [hr]
    rw [hx, foldl_emit_xyz, List.flatMap_append, decorationQuads_positions]
    simp only [List.flatMap_cons, List.flatMap_nil, List.append_nil, List.append_assoc]
  · have hu : r.uv_ =
        ((decorationQuads pen markup g uv0 uv1 ++ [glyphQuad pen markup g]).foldl emit b).uv_ := by
      rw [hr]
    rw [hu, foldl_emit_uv, List.flatMap_append, decorationQuads_uvs]
    simp only [List.flatMap_cons, List.flatMap_nil, List.append_nil, List.append_assoc, glyphQuad]

/-- Witness of C17: `A` at pen `(0, 0)` with an opaque background only; the
background quad samples the sentinel rectangle, the body the rectangle of `A`. -/
theorem decoration_order_texture_witness :
    (65 : ℤ) ≠ newline ∧ backgroundMarkup.font_.glyph 65 = some sampleGlyph ∧
    ∃ (r : TextBuffer) (q : Vec2),
      addCharacter (TextBuffer.construct ⟨0, 0⟩) ⟨0, 0⟩ backgroundMarkup 65 0 = some (r, q) ∧
      r.uv_ =
        [⟨0, 1 / 512⟩, ⟨0, 0⟩, ⟨1 / 512, 0⟩, ⟨1 / 512, 1 / 512⟩,
          ⟨1 / 8, 1 / 2⟩, ⟨1 / 8, 1 / 4⟩, ⟨3 / 8, 1 / 4⟩, ⟨3 / 8, 1 / 2⟩] := by
  have hc : (65 : ℤ) ≠ newline := by simp [newline]
  have hg : backgroundMarkup.font_.glyph 65 = some sampleGlyph := by
    simp [backgroundMarkup, plainMarkup, sampleFont]
  obtain ⟨r, q, uv0, uv1, body0, body1, h, huv, -, hu⟩ :=
    decoration_order_texture (TextBuffer.construct ⟨0, 0⟩) ⟨0, 0⟩ backgroundMarkup 65 0
      sampleGlyph hc hg sentinelReady_background
  obtain ⟨rfl, rfl⟩ := huv sampleBlack (by simp [backgroundMarkup, plainMarkup, sampleFont])
  refine ⟨hc, hg, r, q, h, ?_⟩
  rw [hu]
  simp [quadUVs, backgroundMarkup, plainMarkup, sampleGlyph, sampleBlack, TextBuffer.construct,
    Vec2.s, Vec2.t]

/-- C14. For every buffer state, pen and style, `addCharacter` on a newline
completes, sets `pen.x` to `origin.x`, increases `pen.y` by exactly
`font.height - font.descender`, sets the line-start marker to the number of
layout items, and leaves the five vertex sequences, the index list and the
item list unchanged. -/
theorem newline_step (b : TextBuffer) (pen : Vec2) (markup : Markup) (previous : ℤ) :
    ∃ (r : TextBuffer) (q : Vec2),
      addCharacter b pen markup newline previous = some (r, q) ∧
      q.x = b.origin_.x ∧ q.y = pen.y + (markup.font_.height - markup.font_.descender) ∧
      r.lineStart_ = b.items_.length ∧ r.lineStart_ = r.items_.length ∧
      r.xyz_ = b.xyz_ ∧ r.uv_ = b.uv_ ∧ r.rgba_ = b.rgba_ ∧ r.shift_ = b.shift_ ∧
      r.gamma_ = b.gamma_ ∧ r.indices_ = b.indices_ ∧ r.items_ = b.items_ := by
  refine ⟨{ b with lineStart_ := b.items_.length },
    ⟨b.origin_.x, pen.y + (markup.font_.height - markup.font_.descender)⟩, ?_,
    rfl, rfl, rfl, rfl, rfl, rfl, rfl, rfl, rfl, rfl, rfl⟩
  unfold addCharacter
  rw [if_pos rfl]

/-- C12 fails on the code: for `A` of the sample font (offset `(1, 9)`, width
`6`, height `10`) at pen `(0, 0)` the glyph body is emitted with corners
`(1, 1)` and `(7, -8)`, while the corners `pen + offset` and
`pen + offset + (width, -height)` are `(1, 9)` and `(7, -1)`. -/
theorem glyph_body_corners_counterexample :
    (addCharacter (TextBuffer.construct ⟨0, 0⟩) ⟨0, 0⟩ plainMarkup 65 0).map
        (fun r => r.1.xyz_) =
      some (quadPositions ⟨1, 1⟩ ⟨7, -8⟩) ∧
    quadPositions ⟨1, 1⟩ ⟨7, -8⟩ ≠
      quadPositions
        ⟨(0 : ℚ) + sampleGlyph.offset_.x, (toInt ((0 : ℚ) + sampleGlyph.offset_.y) : ℚ)⟩
        ⟨(0 : ℚ) + sampleGlyph.offset_.x + sampleGlyph.width_,
          (toInt ((0 : ℚ) + sampleGlyph.offset_.y - sampleGlyph.height_) : ℚ)⟩ := by
  constructor
  · simp [addCharacter, decoration, addQuad, addVertex, TextBuffer.construct, plainMarkup,
      sampleFont, newline, sampleGlyph, quadPositions]
    norm_num [toInt, Int.ceil_neg]
  · simp [quadPositions, sampleGlyph]
    norm_num [toInt, Int.ceil_neg]

/-- C12 as amended. For every resolved character with glyph `g` at pen `p`,
laid out with the sentinel glyph available, the glyph body is the last quad
emitted, with `corner0 = (p.x + g.offset.x, trunc(p.y + g.height - g.offset.y))`
and `corner1 = (p.x + g.offset.x + g.width, y1)` for an integer `y1`: the
horizontal coordinates are `pen + offset` and `pen + offset + width`, not
truncated, the vertical ones are truncated to integers; the quad samples the
UV rectangle of `g` with the foreground colour. The value of `y1` is not part
of the statement. -/
theorem glyph_body_corners (b : TextBuffer) (pen : Vec2) (markup : Markup)
    (current previous : ℤ) (g : Glyph) (hc : current ≠ newline)
    (hg : markup.font_.glyph current = some g) (hs : markup.sentinelReady) :
    ∃ (r : TextBuffer) (q : Vec2) (y1 : ℤ),
      addCharacter b pen markup current previous = some (r, q) ∧
      r.xyz_.drop (b.xyz_.length + 4 * markup.decorations) =
        quadPositions
          ⟨pen.x + g.offset_.x, (toInt (pen.y + g.height_ - g.offset_.y) : ℚ)⟩
          ⟨pen.x + g.offset_.x + g.width_, (y1 : ℚ)⟩ ∧
      r.uv_.drop (b.uv_.length + 4 * markup.decorations) = quadUVs g.st_0 g.st_1 ∧
      r.rgba_.drop (b.rgba_.length + 4 * markup.decorations) =
        [markup.foregroundColor_, markup.foregroundColor_, markup.foregroundColor_,
          markup.foregroundColor_] := by
  obtain ⟨r, q, h⟩ := addCharacter_some_of_ready b pen markup current previous hs
  obtain ⟨uv0, uv1, -, hr, -⟩ := addCharacter_emits hc hg h
  have hx : r.xyz_ =
      ((decorationQuads pen markup g uv0 uv1 ++ [glyphQuad pen markup g]).foldl emit b).xyz_ := by
    rw [hr]
  have hu : r.uv_ =
      ((decorationQuads pen markup g uv0 uv1 ++ [glyphQuad pen markup g]).foldl emit b).uv_ := by
    rw [hr]
  have hk : r.rgba_ =
      ((decorationQuads pen markup g uv0 uv1 ++ [glyphQuad pen markup g]).foldl emit b).rgba_ := by
    rw [hr]
  have hlen := length_decorationQuads pen markup g uv0 uv1
  have l1 : (b.xyz_ ++ (decorationQuads pen markup g uv0 uv1).flatMap
      fun k => quadPositions k.xy0 k.xy1).length = b.xyz_.length + 4 * markup.decorations := by
    rw [List.length_append, ← hlen,
      length_flatMap_const (fun k : Quad => quadPositions k.xy0 k.xy1) 4 (fun _ => rfl)]
  have l2 : (b.uv_ ++ (decorationQuads pen markup g uv0 uv1).flatMap
      fun k => quadUVs k.uv0 k.uv1).length = b.uv_.length + 4 * markup.decorations := by
    rw [List.length_append, ← hlen,
      length_flatMap_const (fun k : Quad => quadUVs k.uv0 k.uv1) 4 (fun _ => rfl)]
  have l3 : (b.rgba_ ++ (decorationQuads pen markup g uv0 uv1).flatMap
      fun k => List.replicate 4 k.color).length = b.rgba_.length + 4 * markup.decorations := by
    rw [List.length_append, ← hlen,
      length_flatMap_const (fun k : Quad => List.replicate 4 k.color) 4 (fun _ => rfl)]
  refine ⟨r, q, toInt ((toInt (pen.y + g.height_ - g.offset_.y) : ℚ) - g.offset_.y), h,
    ?_, ?_, ?_⟩
  · rw [hx, foldl_emit_xyz, List.flatMap_append, ← List.append_assoc, ← l1, List.drop_left]
    simp [glyphQuad]
  · rw [hu, foldl_emit_uv, List.flatMap_append, ← List.append_assoc, ← l2, List.drop_left]
    simp [glyphQuad]
  · rw [hk, foldl_emit_rgba, List.flatMap_append, ← List.append_assoc, ← l3, List.drop_left]
    simp [glyphQuad, List.replicate]

/-- Witness of C12 as amended: `A` at pen `(0, 0)` behind an opaque background;
the body has its first corner at `(1, 1)` and its second at `x = 7`. -/
theorem glyph_body_corners_witness :
    (65 : ℤ) ≠ newline ∧ backgroundMarkup.font_.glyph 65 = some sampleGlyph ∧
    ∃ (r : TextBuffer) (q : Vec2) (y1 : ℤ),
      addCharacter (TextBuffer.construct ⟨0, 0⟩) ⟨0, 0⟩ backgroundMarkup 65 0 = some (r, q) ∧
      r.xyz_.drop 4 = quadPositions ⟨1, 1⟩ ⟨7, (y1 : ℚ)⟩ := by
  have hc : (65 : ℤ) ≠ newline := by simp [newline]
  have hg : backgroundMarkup.font_.glyph 65 = some sampleGlyph := by
    simp [backgroundMarkup, plainMarkup, sampleFont]
  obtain ⟨r, q, y1, h, hx, -, -⟩ :=
    glyph_body_corners (TextBuffer.construct ⟨0, 0⟩) ⟨0, 0⟩ backgroundMarkup 65 0
      sampleGlyph hc hg sentinelReady_background
  refine ⟨hc, hg, r, q, y1, h, ?_⟩
  have hd : backgroundMarkup.decorations = 1 := by
    simp [Markup.decorations, backgroundMarkup, plainMarkup]
  rw [hd] at hx
  simp only [TextBuffer.construct, List.length_nil, Nat.zero_add, Nat.mul_one] at hx
  rw [hx]
  simp [sampleGlyph, quadPositions]
  norm_num [toInt]

theorem decorationQuads_colors (pen : Vec2) (markup : Markup) (g : Glyph) (uv0 uv1 : Vec2) :
    ((decorationQuads pen markup g uv0 uv1).flatMap fun k => List.replicate 4 k.color) =
      (if markup.backgroundColor_.a > 0 then List.replicate 4 markup.backgroundColor_ else [])
      ++ (if markup.underline_ then List.replicate 4 markup.underlineColor_ else [])
      ++ (if markup.overline_ then List.replicate 4 markup.overlineColor_ else [])
      ++ (if markup.strikethrough_ then List.replicate 4 markup.overlineColor_ else []) := by
  unfold decorationQuads
  simp only [List.flatMap_append, flatMap_ite_singleton]

/-- C13 fails on the code: with the underline toggle set and an underline
colour of alpha `0`, `A` still gets an underline quad: 8 vertices, the first
four carrying alpha `0`. -/
theorem alpha_zero_counterexample :
    ghostUnderlineMarkup.underlineColor_.a = 0 ∧
    (addCharacter (TextBuffer.construct ⟨0, 0⟩) ⟨0, 0⟩ ghostUnderlineMarkup 65 0).map
        (fun r => (r.1.xyz_.length, r.1.rgba_.map fun c => c.a)) =
      some (8, [0, 0, 0, 0, 1, 1, 1, 1]) := by
  constructor
  · rfl
  · simp [addCharacter, decoration, addQuad, addVertex, TextBuffer.construct,
      ghostUnderlineMarkup, plainMarkup, sampleFont, newline, sampleGlyph]

/-- C13 as amended. For every resolved character laid out with the sentinel
glyph available, the background quad is emitted exactly when the background
alpha is above `0` (never with alpha `0`), and the underline, overline and
strikethrough quads are emitted exactly when their toggle is set, whatever the
alpha of their colour: the colours appended start with four copies of the
background colour when its alpha is above `0`, and the number of quads is one
per active gate plus the glyph body. -/
theorem alpha_gates_background (b : TextBuffer) (pen : Vec2) (markup : Markup)
    (current previous : ℤ) (g : Glyph) (hc : current ≠ newline)
    (hg : markup.font_.glyph current = some g) (hs : markup.sentinelReady) :
    ∃ (r : TextBuffer) (q : Vec2) (rest : List Vec4),
      addCharacter b pen markup current previous = some (r, q) ∧
      r.xyz_.length = b.xyz_.length
        + 4 * ((if markup.backgroundColor_.a > 0 then 1 else 0)
          + (if markup.underline_ then 1 else 0) + (if markup.overline_ then 1 else 0)
          + (if markup.strikethrough_ then 1 else 0) + 1) ∧
      rest.length = 4 * ((if markup.underline_ then 1 else 0)
          + (if markup.overline_ then 1 else 0)
          + (if markup.strikethrough_ then 1 else 0) + 1) ∧
      r.rgba_ = b.rgba_
        ++ (if markup.backgroundColor_.a > 0 then List.replicate 4 markup.backgroundColor_
            else [])
        ++ rest := by
  obtain ⟨r, q, h⟩ := addCharacter_some_of_ready b pen markup current previous hs
  obtain ⟨uv0, uv1, -, hr, -⟩ := addCharacter_emits hc hg h
  have hk : r.rgba_ =
      ((decorationQuads pen markup g uv0 uv1 ++ [glyphQuad pen markup g]).foldl emit b).rgba_ := by
    rw [hr]
  have hx : r.xyz_.length = b.xyz_.length + 4 * (markup.decorations + 1) := by
    have e : r.xyz_ =
        ((decorationQuads pen markup g uv0 uv1 ++ [glyphQuad pen markup g]).foldl emit b).xyz_ := by
      rw [hr]
    rw [e, (foldl_emit_lengths _ b).1, List.length_append, length_decorationQuads]
    rfl
  refine ⟨r, q,
    (if markup.underline_ then List.replicate 4 markup.underlineColor_ else [])
      ++ (if markup.overline_ then List.replicate 4 markup.overlineColor_ else [])
      ++ (if markup.strikethrough_ then List.replicate 4 markup.overlineColor_ else [])
      ++ List.replicate 4 markup.foregroundColor_, h, ?_, ?_, ?_⟩
  · rw [hx]
    rfl
  · cases markup.underline_ <;> cases markup.overline_ <;> cases markup.strikethrough_ <;> rfl
  · rw [hk, foldl_emit_rgba, List.flatMap_append, decorationQuads_colors]
    simp only [List.flatMap_cons, List.flatMap_nil, List.append_nil, List.append_assoc,
      glyphQuad]

/-- Witness of C13 as amended: the background colour of the plain style has
alpha `0`, so `A` gets the glyph body only. -/
theorem alpha_gates_background_witness :
    (65 : ℤ) ≠ newline ∧ plainMarkup.font_.glyph 65 = some sampleGlyph ∧
    plainMarkup.backgroundColor_.a = 0 ∧
    ∃ (r : TextBuffer) (q : Vec2),
      addCharacter (TextBuffer.construct ⟨0, 0⟩) ⟨0, 0⟩ plainMarkup 65 0 = some (r, q) ∧
      r.xyz_.length = 4 := by
  have hc : (65 : ℤ) ≠ newline := by simp [newline]
  have hg : plainMarkup.font_.glyph 65 = some sampleGlyph := by
    simp [plainMarkup, sampleFont]
  obtain ⟨r, q, rest, h, hx, -, -⟩ :=
    alpha_gates_background (TextBuffer.construct ⟨0, 0⟩) ⟨0, 0⟩ plainMarkup 65 0 sampleGlyph
      hc hg sentinelReady_plain
  refine ⟨hc, hg, rfl, r, q, h, ?_⟩
  rw [hx]
  simp [plainMarkup, TextBuffer.construct]

/-- C19 fails on the code: the strikethrough block passes `overlineColor_` to
`addQuad`. With only the strikethrough on, strikethrough colour `(1, 1, 0, 1)`
and overline colour `(0, 1, 0, 1)`, the strikethrough quad of `A` carries the
overline colour on its four vertices; the glyph body carries the foreground
colour. -/
theorem strikethrough_takes_overline_color :
    strikeMarkup.strikethroughColor_ = ⟨1, 1, 0, 1⟩ ∧
    (addCharacter (TextBuffer.construct ⟨0, 0⟩) ⟨0, 0⟩ strikeMarkup 65 0).map
        (fun r => r.1.rgba_) =
      some [⟨0, 1, 0, 1⟩, ⟨0, 1, 0, 1⟩, ⟨0, 1, 0, 1⟩, ⟨0, 1, 0, 1⟩,
        ⟨1, 1, 1, 1⟩, ⟨1, 1, 1, 1⟩, ⟨1, 1, 1, 1⟩, ⟨1, 1, 1, 1⟩] := by
  constructor
  · rfl
  · simp [addCharacter, decoration, addQuad, addVertex, TextBuffer.construct,
      strikeMarkup, plainMarkup, sampleFont, newline, sampleGlyph]

/-- C20 fails on the code: `clear()` empties the item list and leaves
`lineStart_` as it is. After `addText` of `A`, newline on a new buffer the
marker is `1`; after `clear()` the item list is empty and the marker is still
`1`. -/
theorem lineStart_survives_clear :
    (runCalls [Call.addText ⟨0, 0⟩ plainMarkup [65, 10], Call.clear]
        (TextBuffer.construct ⟨0, 0⟩)).map (fun b => (b.items_.length, b.lineStart_)) =
      some (0, 1) := by
  simp [runCalls, Call.run, addText, addTextLoop, addCharacter, decoration, addQuad, addVertex,
    clear, TextBuffer.construct, plainMarkup, sampleFont, newline, sampleGlyph]

/-! ## Sub-pixel shift -/

theorem shiftOfPosition_quadStable : QuadStable ShiftOfPosition where
  quad := by
    intro b xy0 xy1 uv0 uv1 color gamma h
    unfold ShiftOfPosition at h ⊢
    rw [addQuad_shift, addQuad_xyz, List.map_append, h]
    rfl
  geom := by
    rintro b c ⟨hx, -, -, hs, -, -⟩ h
    unfold ShiftOfPosition at h ⊢
    rw [hx, hs, h]

theorem toInt_of_nonneg {x : ℚ} (h : 0 ≤ x) : toInt x = ⌊x⌋ := by
  unfold toInt
  rw [if_pos h]

theorem toInt_of_neg {x : ℚ} (h : x < 0) : toInt x = ⌈x⌉ := by
  unfold toInt
  rw [if_neg (not_le.mpr h)]

/-- C11 fails on the code: `A` laid out from pen `(-3/2, 0)` has its left
corners at `x = -1/2`, and their shift is `-1/2 - (int)(-1/2) = -1/2`, while
`-1/2 - floor(-1/2) = 1/2`. -/
theorem shift_negative_counterexample :
    (runCalls [Call.addText ⟨-3 / 2, 0⟩ plainMarkup [65]] (TextBuffer.construct ⟨0, 0⟩)).map
        (fun b => (b.xyz_.map (fun p => p.x), b.shift_)) =
      some ([-1 / 2, -1 / 2, 11 / 2, 11 / 2], [-1 / 2, -1 / 2, 1 / 2, 1 / 2]) ∧
    (-1 / 2 : ℚ) - ⌊(-1 / 2 : ℚ)⌋ = 1 / 2 := by
  constructor
  · simp [runCalls, Call.run, addText, addTextLoop, addCharacter, decoration, addQuad,
      addVertex, TextBuffer.construct, plainMarkup, sampleFont, newline, sampleGlyph]
    norm_num [toInt, Int.ceil_neg]
  · have h : ⌊(-1 / 2 : ℚ)⌋ = -1 := by
      rw [Int.floor_eq_iff]
      norm_num
    rw [h]
    norm_num

/-- C11 as amended. For every vertex `i` of every buffer reached from a newly
constructed one by `addText` and `clear` calls, `shift[i]` is the x-coordinate
of that vertex minus that coordinate truncated towards zero. When the
coordinate is not negative this is its fractional part `x - floor(x)`, a value
in `[0, 1)`; when it is negative it is `x - ceil(x)`, a value in `(-1, 0]`. -/
theorem shift_is_truncation_remainder (origin : Vec2) (calls : List Call) (b : TextBuffer)
    (hcalls : ∀ c ∈ calls, c.isLayout = true)
    (hrun : runCalls calls (TextBuffer.construct origin) = some b) (i : ℕ) (p : Vec3)
    (hp : b.xyz_[i]? = some p) :
    b.shift_[i]? = some (p.x - toInt p.x) ∧
    (0 ≤ p.x → p.x - toInt p.x = p.x - ⌊p.x⌋ ∧ 0 ≤ p.x - toInt p.x ∧ p.x - toInt p.x < 1) ∧
    (p.x < 0 → p.x - toInt p.x = p.x - ⌈p.x⌉ ∧ -1 < p.x - toInt p.x ∧ p.x - toInt p.x ≤ 0) := by
  have hinv : ShiftOfPosition b :=
    runCalls_keeps calls _ b
      (fun c hc => keeps_of_isLayout shiftOfPosition_quadStable (fun _ => rfl) c (hcalls c hc))
      hrun rfl
  refine ⟨?_, ?_, ?_⟩
  · rw [hinv, List.getElem?_map, hp]
    rfl
  · intro h
    rw [toInt_of_nonneg h]
    refine ⟨rfl, ?_, ?_⟩
    · exact sub_nonneg.mpr (Int.floor_le p.x)
    · have := Int.lt_floor_add_one p.x
      linarith
  · intro h
    rw [toInt_of_neg h]
    refine ⟨rfl, ?_, ?_⟩
    · have := Int.ceil_lt_add_one p.x
      linarith
    · exact sub_nonpos.mpr (Int.le_ceil p.x)

/-- Witness of C11 as amended: vertex `0` of the sample buffer, at `x = 3/2`,
has shift `1/2`. -/
theorem shift_is_truncation_remainder_witness :
    (∀ c ∈ sampleCalls, c.isLayout = true) ∧
    runCalls sampleCalls (TextBuffer.construct ⟨0, 0⟩) = some sampleBuffer ∧
    sampleBuffer.xyz_[0]? = some ⟨3 / 2, 4, 0⟩ ∧
    sampleBuffer.shift_[0]? = some ((3 / 2 : ℚ) - toInt (3 / 2)) ∧
    (3 / 2 : ℚ) - toInt (3 / 2) = (3 / 2 : ℚ) - ⌊(3 / 2 : ℚ)⌋ :=
  have h := shift_is_truncation_remainder ⟨0, 0⟩ sampleCalls sampleBuffer
    (by simp [sampleCalls, Call.isLayout]) sampleCalls_run 0 ⟨3 / 2, 4, 0⟩ rfl
  ⟨by simp [sampleCalls, Call.isLayout], sampleCalls_run, rfl, h.1,
    (h.2.1 (by norm_num)).1⟩

/-! ## Several `addText` calls in a row -/

theorem addQuad_sameLine {b c : TextBuffer} (h : SameLine b c) (xy0 xy1 uv0 uv1 : Vec2)
    (color : Vec4) (gamma : ℚ) :
    SameLine (addQuad b xy0 xy1 uv0 uv1 color gamma)
      (addQuad c xy0 xy1 uv0 uv1 color gamma) := by
  obtain ⟨⟨hx, hu, hr, hs, hg, hi⟩, ht, ho⟩ := h
  refine ⟨⟨?_, ?_, ?_, ?_, ?_, ?_⟩, ?_, ?_⟩
  · rw [addQuad_xyz, addQuad_xyz, hx]
  · rw [addQuad_uv, addQuad_uv, hu]
  · rw [addQuad_rgba, addQuad_rgba, hr]
  · rw [addQuad_shift, addQuad_shift, hs]
  · rw [addQuad_gamma, addQuad_gamma, hg]
  · rw [addQuad_indices, addQuad_indices, hi, hx]
  · rw [addQuad_items, addQuad_items, ht]
  · rw [addQuad_origin, addQuad_origin, ho]

theorem decoration_sameLine (cond : Bool) (black : Option Glyph) (xy0 xy1 : Vec2)
    (color : Vec4) (gamma : ℚ) {e f : Emitted} (h : SameLine e.buf f.buf)
    (hv : f.vcount = e.vcount) (hi : f.icount = e.icount) :
    Option.Rel
      (fun r s => SameLine r.buf s.buf ∧ s.vcount = r.vcount ∧ s.icount = r.icount)
      (decoration cond black xy0 xy1 color gamma e)
      (decoration cond black xy0 xy1 color gamma f) := by
  unfold decoration
  cases cond with
  | false => exact Option.Rel.some ⟨h, hv, hi⟩
  | true =>
    cases black with
    | none => exact Option.Rel.none
    | some bl =>
      exact Option.Rel.some ⟨addQuad_sameLine h _ _ _ _ _ _, by simp [hv], by simp [hi]⟩

theorem addCharacter_sameLine {b c : TextBuffer} (h : SameLine b c) (pen : Vec2)
    (markup : Markup) (current previous other : ℤ) :
    Option.Rel (fun r s => SameLine r.1 s.1 ∧ s.2 = r.2)
      (addCharacter b pen markup current previous)
      (addCharacter c pen markup current other) := by
  unfold addCharacter
  split
  · obtain ⟨⟨hx, hu, hr, hs, hg, hi⟩, ht, ho⟩ := h
    exact Option.Rel.some ⟨⟨⟨hx, hu, hr, hs, hg, hi⟩, ht, ho⟩, by simp [ho]⟩
  · split
    · exact Option.Rel.some ⟨h, rfl⟩
    · refine rel_bind (decoration_sameLine _ _ _ _ _ _ h rfl rfl) ?_
      rintro e1 f1 ⟨k1, v1, i1⟩
      refine rel_bind (decoration_sameLine _ _ _ _ _ _ k1 v1 i1) ?_
      rintro e2 f2 ⟨k2, v2, i2⟩
      refine rel_bind (decoration_sameLine _ _ _ _ _ _ k2 v2 i2) ?_
      rintro e3 f3 ⟨k3, v3, i3⟩
      refine rel_bind (decoration_sameLine _ _ _ _ _ _ k3 v3 i3) ?_
      rintro e4 f4 ⟨k4, v4, i4⟩
      obtain ⟨⟨hx, -, -, -, -, hi⟩, -, -⟩ := h
      obtain ⟨⟨qx, qu, qr, qs, qg, qi⟩, qt, qo⟩ :=
        addQuad_sameLine k4
          ⟨pen.x + _, (toInt (pen.y + _ - _) : ℚ)⟩ ⟨pen.x + _ + _, (toInt (_ - _) : ℚ)⟩
          _ _ markup.foregroundColor_ markup.gamma_
      refine Option.Rel.some ⟨⟨⟨qx, qu, qr, qs, qg, qi⟩, ?_, qo⟩, rfl⟩
      simp only [qt, hx, hi, v4, i4]

theorem addTextLoop_sameLine (markup : Markup) (text : List ℤ) :
    ∀ (previous : ℤ) (st su : TextBuffer × Vec2), SameLine st.1 su.1 → su.2 = st.2 →
    Option.Rel (fun r s => SameLine r.1 s.1 ∧ s.2 = r.2)
      (addTextLoop markup previous text st) (addTextLoop markup previous text su) := by
  induction text with
  | nil =>
    intro previous st su h hp
    exact Option.Rel.some ⟨h, hp⟩
  | cons c cs ih =>
    intro previous st su h hp
    simp only [addTextLoop]
    rw [hp]
    refine rel_bind (addCharacter_sameLine h st.2 markup c previous previous) ?_
    rintro r s ⟨k, kp⟩
    exact ih c r s k kp

theorem addCharacter_penAtOrigin {b r : TextBuffer} {pen q : Vec2} {markup : Markup}
    {current previous : ℤ} (h : addCharacter b pen markup current previous = some (r, q))
    (hb : PenAtOrigin (b, pen)) : PenAtOrigin (r, q) := by
  obtain ⟨hx, -, -, ho, hq⟩ := addCharacter_effect h
  intro hr
  simp only at hr hb ⊢
  rw [hx] at hr
  have h0 : b.xyz_.length = 0 := by omega
  rw [hq, ho]
  by_cases hc : current = newline
  · rw [if_pos hc]
  · rw [if_neg hc]
    have hres : markup.font_.resolves current = false := by
      cases hres : markup.font_.resolves current
      · rfl
      · rw [hres] at hr
        simp at hr
    have hg : markup.font_.glyph current = none := by
      simp only [TextureFont.resolves, Bool.and_eq_false_iff, decide_eq_false_iff_not, ne_eq,
        not_not] at hres
      rcases hres with hres | hres
      · exact absurd hres hc
      · cases hglyph : markup.font_.glyph current with
        | none => rfl
        | some g => rw [hglyph] at hres; simp at hres
    simp only [TextureFont.advanceOf, hg, add_zero]
    exact hb h0

theorem addTextLoop_penAtOrigin (markup : Markup) (text : List ℤ) :
    ∀ (previous : ℤ) (st r : TextBuffer × Vec2),
    addTextLoop markup previous text st = some r → PenAtOrigin st → PenAtOrigin r := by
  induction text with
  | nil =>
    intro previous st r h hst
    simp only [addTextLoop, Option.some.injEq] at h
    subst h
    exact hst
  | cons c cs ih =>
    intro previous st r h hst
    simp only [addTextLoop, Option.bind_eq_some] at h
    obtain ⟨mid, h1, h2⟩ := h
    exact ih c mid r h2 (addCharacter_penAtOrigin (r := mid.1) (q := mid.2) h1 hst)

theorem penAtOrigin_recordOrigin (st : TextBuffer × Vec2) : PenAtOrigin (recordOrigin st) := by
  unfold PenAtOrigin recordOrigin
  by_cases h : st.1.xyz_.length = 0
  · simp [h]
  · simp [h]

theorem sameLine_recordOrigin {st : TextBuffer × Vec2} (h : PenAtOrigin st) :
    SameLine st.1 (recordOrigin st).1 := by
  unfold recordOrigin
  by_cases h0 : st.1.xyz_.length = 0
  · simp only [h0, if_true]
    exact ⟨⟨rfl, rfl, rfl, rfl, rfl, rfl⟩, rfl, h h0⟩
  · simp only [h0, if_false]
    exact ⟨⟨rfl, rfl, rfl, rfl, rfl, rfl⟩, rfl, rfl⟩

theorem addText_eq_loop_of_ne_nil (b : TextBuffer) (pen : Vec2) (markup : Markup)
    {text : List ℤ} (h : text ≠ []) :
    addText b pen markup text = addTextLoop markup 0 text (recordOrigin (b, pen)) := by
  rw [addText_eq_loop, headD_cons_tail h]
  rfl

/-- C15. For all non-empty texts `T1` and `T2`, every style, start pen and
starting buffer, `addText(T1)` followed by `addText(T2)` with the pen left by
the first call yields the same five vertex sequences, index list, item list and
final pen as the single call `addText(T1 ++ T2)` (the two fail together), also
when `T1` emits no vertex; both complete when the sentinel glyph is available. -/
theorem multi_call_accumulation (b : TextBuffer) (pen : Vec2) (markup : Markup)
    (t1 t2 : List ℤ) (h1 : t1 ≠ []) (h2 : t2 ≠ []) :
    ((addText b pen markup t1).bind fun r => addText r.1 r.2 markup t2).map
        (fun r => (r.1.geometry, r.2)) =
      (addText b pen markup (t1 ++ t2)).map (fun r => (r.1.geometry, r.2)) ∧
    (markup.sentinelReady →
      ((addText b pen markup t1).bind fun r => addText r.1 r.2 markup t2).isSome = true) := by
  constructor
  · have h12 : t1 ++ t2 ≠ [] := by simp [h1]
    rw [addText_eq_loop_of_ne_nil b pen markup h1, addText_eq_loop_of_ne_nil b pen markup h12,
      addTextLoop_append]
    cases hl : addTextLoop markup 0 t1 (recordOrigin (b, pen)) with
    | none => rfl
    | some mid =>
      simp only [Option.some_bind]
      rw [addText_eq_loop_of_ne_nil mid.1 mid.2 markup h2]
      have hmid : PenAtOrigin mid :=
        addTextLoop_penAtOrigin markup t1 0 _ mid hl (penAtOrigin_recordOrigin (b, pen))
      have hrel := addTextLoop_sameLine markup t2 0 mid (recordOrigin mid)
        (sameLine_recordOrigin hmid) rfl
      symm
      refine map_eq_of_rel hrel ?_
      rintro ⟨r, p⟩ ⟨s, q⟩ ⟨⟨⟨hx, hu, hr, hs, hg, hi⟩, ht, -⟩, hq⟩
      simp only at hx hu hr hs hg hi ht hq
      simp only [TextBuffer.geometry, hx, hu, hr, hs, hg, hi, ht, hq]
  · intro hs
    obtain ⟨r, hr⟩ := Option.isSome_iff_exists.mp (addText_isSome_of_ready b pen markup t1 hs)
    rw [hr, Option.some_bind]
    exact addText_isSome_of_ready r.1 r.2 markup t2 hs

/-- Witness of C15: a newline, then `A`, on a new buffer from pen `(1/2, 3)`;
the first call emits no vertex. Both ways end with one quad and the pen at
`(15/2, 20)`. -/
theorem multi_call_accumulation_witness :
    ([10] : List ℤ) ≠ [] ∧ ([65] : List ℤ) ≠ [] ∧
    ((addText (TextBuffer.construct ⟨0, 0⟩) ⟨1 / 2, 3⟩ plainMarkup [10]).bind
        fun r => addText r.1 r.2 plainMarkup [65]).map (fun r => (r.1.geometry, r.2)) =
      (addText (TextBuffer.construct ⟨0, 0⟩) ⟨1 / 2, 3⟩ plainMarkup [10, 65]).map
        (fun r => (r.1.geometry, r.2)) ∧
    (addText (TextBuffer.construct ⟨0, 0⟩) ⟨1 / 2, 3⟩ plainMarkup [10, 65]).map
        (fun r => (r.1.counts, r.2)) = some ((4, 6, 1), ⟨15 / 2, 20⟩) := by
  refine ⟨by simp, by simp,
    (multi_call_accumulation (TextBuffer.construct ⟨0, 0⟩) ⟨1 / 2, 3⟩ plainMarkup [10] [65]
      (by simp) (by simp)).1, ?_⟩
  simp [addText, addTextLoop, addCharacter, decoration, addQuad, addVertex,
    TextBuffer.construct, TextBuffer.counts, plainMarkup, sampleFont, newline, sampleGlyph]
  norm_num

/-! ## Layout items tile the buffer -/

theorem tilesFrom_snoc (xs : List IVec4) (it : IVec4) :
    ∀ (v i ve ie : ℤ), tilesFrom v i xs ve ie → it.x = ve → it.z = ie →
    (∃ k : ℤ, 1 ≤ k ∧ k ≤ 5 ∧ it.y = 4 * k ∧ it.w = 6 * k) →
    tilesFrom v i (xs ++ [it]) (ve + it.y) (ie + it.w) := by
  induction xs with
  | nil =>
    rintro v i ve ie ⟨h1, h2⟩ hx hz hk
    subst h1 h2
    exact ⟨hx, hz, hk, rfl, rfl⟩
  | cons a rest ih =>
    rintro v i ve ie ⟨h1, h2, h3, h4⟩ hx hz hk
    exact ⟨h1, h2, h3, ih _ _ _ _ h4 hx hz hk⟩

theorem tilesFrom_spelled (xs : List IVec4) :
    ∀ (v i ve ie : ℤ), tilesFrom v i xs ve ie →
    (xs = [] → ve = v ∧ ie = i) ∧
    (∀ it, xs.head? = some it → it.x = v ∧ it.z = i) ∧
    (∀ j a c, xs[j]? = some a → xs[j + 1]? = some c → c.x = a.x + a.y ∧ c.z = a.z + a.w) ∧
    (∀ it, xs.getLast? = some it → it.x + it.y = ve ∧ it.z + it.w = ie) ∧
    (∀ it ∈ xs, ∃ k : ℤ, 1 ≤ k ∧ k ≤ 5 ∧ it.y = 4 * k ∧ it.w = 6 * k) := by
  induction xs with
  | nil =>
    rintro v i ve ie ⟨h1, h2⟩
    refine ⟨fun _ => ⟨h1, h2⟩, ?_, ?_, ?_, ?_⟩
    · intro it h; simp at h
    · intro j a c h; simp at h
    · intro it h; simp at h
    · intro it h; simp at h
  | cons a rest ih =>
    rintro v i ve ie ⟨h1, h2, h3, h4⟩
    obtain ⟨r1, r2, r3, r4, r5⟩ := ih _ _ _ _ h4
    refine ⟨?_, ?_, ?_, ?_, ?_⟩
    · intro h; simp at h
    · intro it h
      simp only [List.head?_cons, Option.some.injEq] at h
      subst h
      exact ⟨h1, h2⟩
    · intro j x y hx hy
      cases j with
      | zero =>
        simp only [List.getElem?_cons_zero, Option.some.injEq] at hx
        subst hx
        simp only [Nat.zero_add, List.getElem?_cons_succ] at hy
        have hh : rest.head? = some y := by
          rw [List.head?_eq_getElem?]
          exact hy
        obtain ⟨e1, e2⟩ := r2 y hh
        rw [e1, e2, h1, h2]
        exact ⟨rfl, rfl⟩
      | succ j =>
        simp only [List.getElem?_cons_succ] at hx hy
        exact r3 j x y hx hy
    · intro it h
      cases rest with
      | nil =>
        simp only [List.getLast?_singleton, Option.some.injEq] at h
        subst h
        obtain ⟨e1, e2⟩ := r1 rfl
        rw [e1, e2, h1, h2]
        exact ⟨rfl, rfl⟩
      | cons y ys =>
        rw [List.getLast?_cons_cons] at h
        exact r4 it h
    · intro it h
      rcases List.mem_cons.mp h with h | h
      · subst h
        exact h3
      · exact r5 it h

theorem decorations_le_four (markup : Markup) : markup.decorations ≤ 4 := by
  unfold Markup.decorations
  split <;> split <;> split <;> split <;> omega

theorem addCharacter_tiled {b r : TextBuffer} {pen q : Vec2} {markup : Markup}
    {current previous : ℤ} (h : addCharacter b pen markup current previous = some (r, q))
    (hb : Tiled b) : Tiled r := by
  by_cases hc : current = newline
  · unfold addCharacter at h
    rw [if_pos hc] at h
    simp only [Option.some.injEq, Prod.mk.injEq] at h
    obtain ⟨rfl, -⟩ := h
    exact hb
  · cases hg : markup.font_.glyph current with
    | none =>
      unfold addCharacter at h
      rw [if_neg hc] at h
      simp only [hg, Option.some.injEq, Prod.mk.injEq] at h
      obtain ⟨rfl, -⟩ := h
      exact hb
    | some g =>
      obtain ⟨uv0, uv1, -, hr, -⟩ := addCharacter_emits hc hg h
      obtain ⟨l1, l2, -, -, -⟩ :=
        foldl_emit_lengths (decorationQuads pen markup g uv0 uv1 ++ [glyphQuad pen markup g]) b
      rw [List.length_append, length_decorationQuads] at l1 l2
      have hle := decorations_le_four markup
      have hx : (r.xyz_.length : ℤ) = (b.xyz_.length : ℤ) +
          ((4 * (markup.decorations + 1) : ℕ) : ℤ) := by
        rw [hr]
        simp only [l1, List.length_singleton]
        push_cast
        ring
      have hi : (r.indices_.length : ℤ) = (b.indices_.length : ℤ) +
          ((6 * (markup.decorations + 1) : ℕ) : ℤ) := by
        rw [hr]
        simp only [l2, List.length_singleton]
        push_cast
        ring
      have ht : r.items_ = b.items_ ++ [⟨b.xyz_.length, ((4 * (markup.decorations + 1) : ℕ) : ℤ),
          b.indices_.length, ((6 * (markup.decorations + 1) : ℕ) : ℤ)⟩] := by
        rw [hr]
      unfold Tiled at hb ⊢
      rw [hx, hi, ht]
      refine tilesFrom_snoc _ _ _ _ _ _ hb rfl rfl ⟨(markup.decorations : ℤ) + 1, ?_, ?_, ?_, ?_⟩
      · omega
      · omega
      · push_cast; ring
      · push_cast; ring

theorem addTextLoop_tiled (markup : Markup) (text : List ℤ) :
    ∀ (previous : ℤ) (st r : TextBuffer × Vec2),
    addTextLoop markup previous text st = some r → Tiled st.1 → Tiled r.1 := by
  induction text with
  | nil =>
    intro previous st r h hst
    simp only [addTextLoop, Option.some.injEq] at h
    subst h
    exact hst
  | cons c cs ih =>
    intro previous st r h hst
    simp only [addTextLoop, Option.bind_eq_some] at h
    obtain ⟨mid, h1, h2⟩ := h
    exact ih c mid r h2 (addCharacter_tiled (r := mid.1) (q := mid.2) h1 hst)

theorem keeps_tiled (c : Call) (hc : c.isLayout = true) : c.Keeps Tiled := by
  intro b r h hb
  cases c with
  | addText pen markup text =>
    change (addText b pen markup text).map Prod.fst = some r at h
    obtain ⟨⟨r1, q⟩, hq, rfl⟩ := Option.map_eq_some.mp h
    rw [addText_eq_loop] at hq
    refine addTextLoop_tiled markup _ 0 _ (r1, q) hq ?_
    show Tiled (if b.xyz_.length = 0 then { b with origin_ := pen } else b)
    split
    · exact hb
    · exact hb
  | clear =>
    simp only [Call.run, Option.some.injEq] at h
    subst h
    exact ⟨rfl, rfl⟩
  | addCharacter pen markup current previous => simp [Call.isLayout] at hc
  | addQuad xy0 xy1 uv0 uv1 color gamma => simp [Call.isLayout] at hc
  | addVertex position texture color shift gamma => simp [Call.isLayout] at hc

theorem runCalls_itemCount (calls : List Call) :
    ∀ b r : TextBuffer, (∀ c ∈ calls, c.isLayout = true) → runCalls calls b = some r →
    r.items_.length = itemCount calls b.items_.length := by
  induction calls with
  | nil =>
    intro b r _ h
    simp only [runCalls, Option.some.injEq] at h
    subst h
    rfl
  | cons c cs ih =>
    intro b r hl h
    simp only [runCalls, Option.bind_eq_some] at h
    obtain ⟨mid, h1, h2⟩ := h
    have hmid : mid.items_.length = c.itemCount b.items_.length := by
      have hc := hl c (List.mem_cons_self c cs)
      cases c with
      | addText pen markup text =>
        change (addText b pen markup text).map Prod.fst = some mid at h1
        obtain ⟨⟨r1, q⟩, hq, rfl⟩ := Option.map_eq_some.mp h1
        rw [addText_eq_loop] at hq
        obtain ⟨-, -, ht, -⟩ := addTextLoop_effect markup _ 0 _ _ hq
        rw [ht]
        simp only [Call.itemCount, laidOut]
        split <;> rfl
      | clear =>
        simp only [Call.run, Option.some.injEq] at h1
        subst h1
        rfl
      | addCharacter pen markup current previous => simp [Call.isLayout] at hc
      | addQuad xy0 xy1 uv0 uv1 color gamma => simp [Call.isLayout] at hc
      | addVertex position texture color shift gamma => simp [Call.isLayout] at hc
    rw [ih mid r (fun d hd => hl d (List.mem_cons_of_mem c hd)) h2, hmid]
    rfl

/-- C18. In every buffer reached from a newly constructed one by `addText` and
`clear` calls, the item list has exactly one entry per laid-out character that
is not a newline and whose glyph resolves since the last `clear`; the first
item has `vstart = 0` and `istart = 0`, each next item starts where the
previous one ends, the last item ends at the vertex count and the index count
of the buffer (which are zero when there is no item), and every item has
`vcount = 4 * k` and `icount = 6 * k` for some `k` between 1 and 5. -/
theorem layout_items_tile (origin : Vec2) (calls : List Call) (b : TextBuffer)
    (hcalls : ∀ c ∈ calls, c.isLayout = true)
    (hrun : runCalls calls (TextBuffer.construct origin) = some b) :
    b.items_.length = itemCount calls 0 ∧
    (b.items_ = [] → (b.xyz_.length : ℤ) = 0 ∧ (b.indices_.length : ℤ) = 0) ∧
    (∀ it, b.items_.head? = some it → it.x = 0 ∧ it.z = 0) ∧
    (∀ j a c, b.items_[j]? = some a → b.items_[j + 1]? = some c →
      c.x = a.x + a.y ∧ c.z = a.z + a.w) ∧
    (∀ it, b.items_.getLast? = some it →
      it.x + it.y = b.xyz_.length ∧ it.z + it.w = b.indices_.length) ∧
    (∀ it ∈ b.items_, ∃ k : ℤ, 1 ≤ k ∧ k ≤ 5 ∧ it.y = 4 * k ∧ it.w = 6 * k) := by
  have htiled : Tiled b :=
    runCalls_keeps calls _ b (fun c hc => keeps_tiled c (hcalls c hc)) hrun ⟨rfl, rfl⟩
  exact ⟨runCalls_itemCount calls _ b hcalls hrun, tilesFrom_spelled _ _ _ _ _ htiled⟩

/-- Witness of C18: the sample buffer holds the two items of `AB`, the second
starting where the first ends and ending at 8 vertices and 12 indices. -/
theorem layout_items_tile_witness :
    (∀ c ∈ sampleCalls, c.isLayout = true) ∧
    runCalls sampleCalls (TextBuffer.construct ⟨0, 0⟩) = some sampleBuffer ∧
    sampleBuffer.items_ = [⟨0, 4, 0, 6⟩, ⟨4, 4, 6, 6⟩] ∧
    sampleBuffer.items_.length = itemCount sampleCalls 0 ∧
    (∀ it, sampleBuffer.items_.getLast? = some it →
      it.x + it.y = sampleBuffer.xyz_.length ∧ it.z + it.w = sampleBuffer.indices_.length) :=
  have h := layout_items_tile ⟨0, 0⟩ sampleCalls sampleBuffer
    (by simp [sampleCalls, Call.isLayout]) sampleCalls_run
  ⟨by simp [sampleCalls, Call.isLayout], sampleCalls_run, rfl, h.1, h.2.2.2.2.1⟩

end Voxel
